import Mathlib

/-!
A shallow embedding of the BFS library in `src/cpp/algorithms/bfs.h` and proofs
of the specification claims about it.

Modelling choices:
* `std::unordered_map<int, std::vector<int>>` is modelled as an association list
  `List (Int × List Int)` enumerated in insertion order (the spec leaves the
  enumeration order of `getAllVertices` unspecified; the embedding fixes one
  stable enumeration).  A C++ `unordered_map` has pairwise distinct keys; the
  claims that depend on this carry the corresponding `Nodup` hypothesis.
* The five BFS loops of the source share one dynamics (pop the queue head, push
  the not-yet-visited neighbors, marking them visited at discovery time).  Each
  loop is embedded as its own fuel-based recursion mirroring the source control
  flow; the fuel supplied by the top-level wrappers is provably sufficient, so
  the wrappers are extensionally the C++ functions.
* The grid is a `List (List Int)`; out-of-range reads (which are undefined
  behaviour in the C++ on ragged grids) default to the blocked value `1`, and
  the grid claims carry the rectangularity hypothesis from the spec data model.
-/

set_option linter.unusedSectionVars false

namespace BFS

section Core

variable {α : Type} [DecidableEq α]

/-- The `for (neighbor : neighbors)` loop body shared by `traverse` and
`findConnectedComponents`: each not-yet-visited neighbor is appended to the
visited list and to the queue, in neighbor-enumeration order. -/
def expand (V Q : List α) : List α → List α × List α
  | [] => (V, Q)
  | n :: ns => if n ∈ V then expand V Q ns else expand (V ++ [n]) (Q ++ [n]) ns

/-- The sublist of `ns` that is fresh with respect to visited list `V`
(later duplicates inside `ns` are dropped, as the growing visited set does in
the source). -/
def news (V : List α) : List α → List α
  | [] => []
  | n :: ns => if n ∈ V then news V ns else n :: news (V ++ [n]) ns

/-- The exhaustive BFS loop of `traverse` (and of the component loop inside
`findConnectedComponents`): pop the queue head, record it, push its fresh
neighbors.  `fuel` is a termination bound; the wrappers supply enough. -/
def bfsAux (nbr : α → List α) : Nat → List α → List α → List α
  | 0, _, _ => []
  | _ + 1, [], _ => []
  | fuel + 1, c :: rest, V =>
    c :: bfsAux nbr fuel (expand V rest (nbr c)).2 (expand V rest (nbr c)).1

/-- The neighbor loop of `shortestDistance`: returning `distance + 1` the
moment the target is seen as a neighbor, otherwise enqueuing fresh neighbors
with distance `d + 1`. -/
def sdScan (t : α) (d : Int) : List α → List α → List (α × Int) → Sum Int (List α × List (α × Int))
  | [], V, Q => Sum.inr (V, Q)
  | n :: ns, V, Q =>
    if n = t then Sum.inl (d + 1)
    else if n ∈ V then sdScan t d ns V Q
    else sdScan t d ns (V ++ [n]) (Q ++ [(n, d + 1)])

/-- The main loop of `shortestDistance` over a queue of (vertex, distance)
pairs. -/
def sdAux (nbr : α → List α) (t : α) : Nat → List (α × Int) → List α → Int
  | 0, _, _ => -1
  | _ + 1, [], _ => -1
  | fuel + 1, (c, d) :: rest, V =>
    match sdScan t d (nbr c) V rest with
    | Sum.inl r => r
    | Sum.inr (V2, Q2) => sdAux nbr t fuel Q2 V2

/-- The neighbor loop of `verticesAtDistance`, enqueuing fresh neighbors with
distance `d + 1`. -/
def expandD (d : Int) (V : List α) (Q : List (α × Int)) : List α → List α × List (α × Int)
  | [] => (V, Q)
  | n :: ns => if n ∈ V then expandD d V Q ns else expandD d (V ++ [n]) (Q ++ [(n, d + 1)]) ns

/-- The main loop of `verticesAtDistance`: collect a popped vertex whose
distance equals the requested one, expand below it, skip above it. -/
def vadAux (nbr : α → List α) (dT : Int) : Nat → List (α × Int) → List α → List α → List α
  | 0, _, _, res => res
  | _ + 1, [], _, res => res
  | fuel + 1, (c, d) :: rest, V, res =>
    if d = dT then vadAux nbr dT fuel rest V (res ++ [c])
    else if d < dT then
      vadAux nbr dT fuel (expandD d V rest (nbr c)).2 (expandD d V rest (nbr c)).1 res
    else vadAux nbr dT fuel rest V res

/-- The neighbor loop of the parent-tracking searches (`shortestPath`,
`gridBFS`): fresh neighbors are appended to visited, queue and parent map. -/
def expandP (cur : α) (V Q : List α) (P : List (α × α)) : List α → List α × List α × List (α × α)
  | [] => (V, Q, P)
  | n :: ns =>
    if n ∈ V then expandP cur V Q P ns
    else expandP cur (V ++ [n]) (Q ++ [n]) (P ++ [(n, cur)]) ns

/-- Parent-map lookup.  `d` is the value an absent key yields: `0` for the
`unordered_map<int,int>` of `shortestPath` (`operator[]` default-constructs)
and the sentinel itself for the pre-initialised parent grid of `gridBFS`. -/
def plook (d : α) : List (α × α) → α → α
  | [], _ => d
  | (k, p) :: r, x => if k = x then p else plook d r x

/-- The path-reconstruction loop: follow parent links from the target,
collecting nodes until the sentinel `stop` is reached. -/
def reconsAux (P : List (α × α)) (stop d : α) : Nat → α → List α
  | 0, _ => []
  | fuel + 1, node => if node = stop then [] else node :: reconsAux P stop d fuel (plook d P node)

/-- The main loop of `shortestPath` and `gridBFS`: early-exit with a
reconstructed (and reversed) path when the target is popped. -/
def pbfsAux (nbr : α → List α) (tgt stop d : α) : Nat → List α → List α → List (α × α) → List α
  | 0, _, _, _ => []
  | _ + 1, [], _, _ => []
  | fuel + 1, c :: rest, V, P =>
    if c = tgt then (reconsAux P stop d (P.length + 1) tgt).reverse
    else
      pbfsAux nbr tgt stop d fuel (expandP c V rest P (nbr c)).2.1 (expandP c V rest P (nbr c)).1
        (expandP c V rest P (nbr c)).2.2

/-- A walk of length `n` from `u` to `v` along the neighbor relation. -/
inductive WalkLen (nbr : α → List α) : α → α → Nat → Prop
  | refl (v : α) : WalkLen nbr v v 0
  | cons {u v w : α} {n : Nat} : v ∈ nbr u → WalkLen nbr v w n → WalkLen nbr u w (n + 1)

/-- Reachability along the neighbor relation. -/
def Reach (nbr : α → List α) (u v : α) : Prop := ∃ n, WalkLen nbr u v n

/-- The graph distance from `s` to `v` is `n`: there is a walk of length `n`
and no shorter one. -/
def IsDist (nbr : α → List α) (s v : α) (n : Nat) : Prop :=
  WalkLen nbr s v n ∧ ∀ m, WalkLen nbr s v m → n ≤ m

/-- Vertex `a` is at most as far from `s` as vertex `b`. -/
def distLE (nbr : α → List α) (s a b : α) : Prop :=
  ∀ da db, IsDist nbr s a da → IsDist nbr s b db → da ≤ db

/-- The invariant tying a mid-run BFS state to its meaning.  `D` is the list of
already-popped vertices (in pop order), `Q` the current queue (front first),
`V` the visited list in discovery order, `U` a finite universe bounding the
search. -/
structure TInv (nbr : α → List α) (s : α) (U : List α) (D Q V : List α) : Prop where
  decomp : V = D ++ Q
  nd : V.Nodup
  insub : ∀ v ∈ V, v ∈ U
  rch : ∀ v ∈ V, Reach nbr s v
  srt : V.Pairwise (distLE nbr s)
  window : ∀ f ∈ Q.head?, ∀ q ∈ Q, ∀ dq df, IsDist nbr s q dq → IsDist nbr s f df → dq ≤ df + 1
  low : ∀ u du, Reach nbr s u → IsDist nbr s u du →
    (∀ q ∈ Q, ∀ dq, IsDist nbr s q dq → du < dq) → u ∈ D
  closed : ∀ v ∈ D, ∀ n ∈ nbr v, n ∈ V
  smem : s ∈ V

/-- The extra invariant of `shortestDistance`: payload distances are the true
distances, and the target has never been discovered (the scan would have
returned). -/
structure SDInv (nbr : α → List α) (s t : α) (U : List α)
    (D : List α) (Q : List (α × Int)) (V : List α) : Prop where
  base : TInv nbr s U D (Q.map Prod.fst) V
  pay : ∀ p ∈ Q, ∃ dn : Nat, p.2 = (dn : Int) ∧ IsDist nbr s p.1 dn
  tmiss : t ∉ V

/-- The invariant of `verticesAtDistance`, whose expansion is pruned at the
requested distance `dTN` and whose accumulator `res` holds exactly the popped
vertices at that distance. -/
structure VInv (nbr : α → List α) (s : α) (dTN : Nat) (U : List α)
    (D : List α) (Q : List (α × Int)) (V res : List α) : Prop where
  decomp : V = D ++ Q.map Prod.fst
  nd : V.Nodup
  insub : ∀ v ∈ V, v ∈ U
  rch : ∀ v ∈ V, Reach nbr s v
  srt : V.Pairwise (distLE nbr s)
  window : ∀ f ∈ (Q.map Prod.fst).head?, ∀ q ∈ Q.map Prod.fst, ∀ dq df,
    IsDist nbr s q dq → IsDist nbr s f df → dq ≤ df + 1
  pay : ∀ p ∈ Q, ∃ dn : Nat, p.2 = (dn : Int) ∧ IsDist nbr s p.1 dn
  closedV : ∀ v ∈ D, (∀ dv, IsDist nbr s v dv → dv < dTN) → ∀ n ∈ nbr v, n ∈ V
  lowV : ∀ u du, Reach nbr s u → IsDist nbr s u du → du ≤ dTN →
    (∀ q ∈ Q.map Prod.fst, ∀ dq, IsDist nbr s q dq → du < dq) → u ∈ D
  resmem : ∀ x, x ∈ res ↔ x ∈ D ∧ Reach nbr s x ∧ IsDist nbr s x dTN
  smem : s ∈ V

/-- The invariant of the parent-tracking searches: on top of `TInv`, parent
entries point from each discovered non-start vertex to the neighbor that
discovered it, one distance level down. -/
structure PInv (nbr : α → List α) (s tgt stop d : α) (U : List α)
    (D Q V : List α) (P : List (α × α)) : Prop where
  base : TInv nbr s U D Q V
  pkeysnd : (P.map Prod.fst).Nodup
  pkeyssub : ∀ x ∈ P.map Prod.fst, x ∈ V
  vsub : ∀ v ∈ V, v = s ∨ v ∈ P.map Prod.fst
  pstart : plook d P s = stop
  pcorrect : ∀ v ∈ V, v ≠ s → ∃ p dp, plook d P v = p ∧ p ∈ V ∧ v ∈ nbr p ∧
    IsDist nbr s p dp ∧ IsDist nbr s v (dp + 1)
  tmiss : tgt ∉ D

end Core

/-- The adjacency-list graph of the source: `unordered_map<int, vector<int>>`
as an insertion-ordered association list, plus the `isDirected` flag. -/
structure Graph where
  adjList : List (Int × List Int)
  isDirected : Bool

/-- First-match association-list lookup (`adjList.find`). -/
def lookupAdj : List (Int × List Int) → Int → Option (List Int)
  | [], _ => none
  | (k, ns) :: r, v => if k = v then some ns else lookupAdj r v

/-- The effect of `adjList[u].push_back(w)`: append `w` to `u`'s list, creating
the entry (at the enumeration end) if `u` is absent. -/
def pushNeighbor : List (Int × List Int) → Int → Int → List (Int × List Int)
  | [], u, w => [(u, [w])]
  | (k, ns) :: r, u, w => if k = u then (k, ns ++ [w]) :: r else (k, ns) :: pushNeighbor r u w

/-- `Graph::addEdge`: append `b` to `a`'s adjacency; if undirected, also append
`a` to `b`'s adjacency. -/
def Graph.addEdge (g : Graph) (a b : Int) : Graph :=
  if g.isDirected then Graph.mk (pushNeighbor g.adjList a b) g.isDirected
  else Graph.mk (pushNeighbor (pushNeighbor g.adjList a b) b a) g.isDirected

/-- `Graph::addVertex`: create `v` with an empty adjacency if absent. -/
def Graph.addVertex (g : Graph) (v : Int) : Graph :=
  if (lookupAdj g.adjList v).isSome then g else Graph.mk (g.adjList ++ [(v, [])]) g.isDirected

/-- `Graph::getNeighbors`: the adjacency of `v`, or empty if absent. -/
def Graph.getNeighbors (g : Graph) (v : Int) : List Int := (lookupAdj g.adjList v).getD []

/-- `Graph::getAllVertices`: the keys in enumeration order. -/
def Graph.getAllVertices (g : Graph) : List Int := g.adjList.map Prod.fst

/-- `Graph::hasVertex`. -/
def Graph.hasVertex (g : Graph) (v : Int) : Bool := (lookupAdj g.adjList v).isSome

/-- The finite universe a search from `s` can ever touch: `s` together with
every key and every adjacency entry. -/
def uniOf (g : Graph) (s : Int) : List Int := s :: g.adjList.flatMap (fun p => p.1 :: p.2)

/-- A fuel bound sufficient for any search in `g` (the length of `uniOf`). -/
def gBound (g : Graph) : Nat := (g.adjList.flatMap (fun p => p.1 :: p.2)).length + 1

/-- The component-collecting BFS seeded at `k` (the inner loop of
`findConnectedComponents`, which is verbatim the loop of `traverse`). -/
def comp (g : Graph) (k : Int) : List Int := bfsAux g.getNeighbors (gBound g) [k] [k]

/-- `traverse`: full BFS order from `start`, empty if `start` is unknown. -/
def traverse (g : Graph) (start : Int) : List Int :=
  if g.hasVertex start then comp g start else []

/-- `shortestPath`: parent-tracking BFS with early exit on popping the target;
parent sentinel `-1`, `operator[]` default `0`. -/
def shortestPath (g : Graph) (start target : Int) : List Int :=
  if g.hasVertex start = false ∨ g.hasVertex target = false then []
  else if start = target then [start]
  else pbfsAux g.getNeighbors target (-1) 0 (gBound g) [start] [start] [(start, -1)]

/-- `shortestDistance`: distance-tracking BFS returning `distance + 1` the
moment the target is discovered as a neighbor; `-1` if unreachable. -/
def shortestDistance (g : Graph) (start target : Int) : Int :=
  if g.hasVertex start = false ∨ g.hasVertex target = false then -1
  else if start = target then 0
  else sdAux g.getNeighbors target (gBound g) [(start, 0)] [start]

/-- `verticesAtDistance`: the vertices whose BFS distance from `start` equals
`distance`; empty for an unknown start or negative distance. -/
def verticesAtDistance (g : Graph) (start distance : Int) : List Int :=
  if g.hasVertex start = false ∨ distance < 0 then []
  else if distance = 0 then [start]
  else vadAux g.getNeighbors distance (gBound g) [(start, 0)] [start] []

/-- `isConnected`: does a traversal from the first enumerated vertex visit as
many vertices as the graph has?  Vacuously true when empty. -/
def isConnected (g : Graph) : Bool :=
  if g.getAllVertices.isEmpty then true
  else decide ((traverse g (g.getAllVertices.headD 0)).length = g.getAllVertices.length)

/-- The seed loop of `findConnectedComponents`: `gv` is the global visited
list; each unvisited key seeds a fresh exhaustive BFS whose result is one
component. -/
def fccAux (g : Graph) : List Int → List Int → List (List Int)
  | [], _ => []
  | k :: ks, gv =>
    if k ∈ gv then fccAux g ks gv else comp g k :: fccAux g ks (gv ++ comp g k)

/-- `findConnectedComponents`. -/
def findConnectedComponents (g : Graph) : List (List Int) := fccAux g g.getAllVertices []

/-- The number of grid rows, as the C++ `int rows = grid.size()`. -/
def gridRows (grid : List (List Int)) : Int := (grid.length : Int)

/-- The number of grid columns, `int cols = grid[0].size()`. -/
def gridCols (grid : List (List Int)) : Int := ((grid.headD []).length : Int)

/-- Cell access `grid[r][c]`; out-of-range reads (undefined behaviour in C++ on
ragged grids, excluded by the rectangularity hypothesis) default to blocked. -/
def gridAt (grid : List (List Int)) (r c : Int) : Int := ((grid.getD r.toNat []).getD c.toNat 1)

/-- The bounds-and-passability filter of the grid neighbor loop. -/
def gridOpenB (grid : List (List Int)) (p : Int × Int) : Bool :=
  decide (0 ≤ p.1) && decide (p.1 < gridRows grid) && decide (0 ≤ p.2) &&
    decide (p.2 < gridCols grid) && decide (gridAt grid p.1 p.2 = 0)

/-- The grid neighbor enumeration: up, down, left, right, filtered by bounds
and passability (freshness is checked by the shared expansion loop). -/
def gridNbr (grid : List (List Int)) (p : Int × Int) : List (Int × Int) :=
  [(p.1 - 1, p.2), (p.1 + 1, p.2), (p.1, p.2 - 1), (p.1, p.2 + 1)].filter (gridOpenB grid)

/-- All open in-bounds cells (a finite universe for the grid search). -/
def gridCells (grid : List (List Int)) : List (Int × Int) :=
  ((List.range grid.length).flatMap fun r =>
    (List.range (grid.headD []).length).map fun c => (Int.ofNat r, Int.ofNat c)).filter
    (gridOpenB grid)

/-- `gridBFS`: 4-connected shortest path on a 0/1 grid with parent
reconstruction; sentinel parent `(-1, -1)`. -/
def gridBFS (grid : List (List Int)) (startRow startCol targetRow targetCol : Int) :
    List (Int × Int) :=
  if grid = [] ∨ grid.headD [] = [] then []
  else if startRow < 0 ∨ gridRows grid ≤ startRow ∨ startCol < 0 ∨ gridCols grid ≤ startCol ∨
      targetRow < 0 ∨ gridRows grid ≤ targetRow ∨ targetCol < 0 ∨ gridCols grid ≤ targetCol ∨
      gridAt grid startRow startCol = 1 ∨ gridAt grid targetRow targetCol = 1 then []
  else if startRow = targetRow ∧ startCol = targetCol then [(startRow, startCol)]
  else
    pbfsAux (gridNbr grid) (targetRow, targetCol) (-1, -1) (-1, -1)
      ((gridRows grid).toNat * (gridCols grid).toNat + 1)
      [(startRow, startCol)] [(startRow, startCol)] []

/-- Every adjacency entry of `g` is itself a vertex of `g` (true of every
undirected-built graph; a directed `addEdge(u,v)` can leave `v` dangling). -/
def GClosed (g : Graph) : Prop := ∀ a b : Int, b ∈ g.getNeighbors a → g.hasVertex b = true

/-- The adjacency relation of `g` is symmetric. -/
def GSymm (g : Graph) : Prop := ∀ a b : Int, b ∈ g.getNeighbors a → a ∈ g.getNeighbors b

/-- Graphs built from the undirected empty graph by `addVertex`/`addEdge`. -/
inductive UndirectedBuilt : Graph → Prop
  | nil : UndirectedBuilt (Graph.mk [] false)
  | addV {g : Graph} (v : Int) : UndirectedBuilt g → UndirectedBuilt (g.addVertex v)
  | addE {g : Graph} (a b : Int) : UndirectedBuilt g → UndirectedBuilt (g.addEdge a b)

/-- In-bounds predicate for a grid cell. -/
def InB (grid : List (List Int)) (p : Int × Int) : Prop :=
  0 ≤ p.1 ∧ p.1 < gridRows grid ∧ 0 ≤ p.2 ∧ p.2 < gridCols grid

/-- The grid is rectangular (the data-model assumption of the spec). -/
def RectGrid (grid : List (List Int)) : Prop :=
  ∀ row ∈ grid, row.length = (grid.headD []).length

/-- Every cell value is 0 or 1, as documented (`0 = walkable, 1 = obstacle`). -/
def BinGrid (grid : List (List Int)) : Prop := ∀ row ∈ grid, ∀ x ∈ row, x = 0 ∨ x = 1

/-- Two cells differ by exactly one 4-connected axis-aligned step. -/
def StepAdj (a b : Int × Int) : Prop :=
  b ∈ [(a.1 - 1, a.2), (a.1 + 1, a.2), (a.1, a.2 - 1), (a.1, a.2 + 1)]

/-- `e` is the eccentricity of `s`: an attained upper bound of the distances of
the vertices reachable from `s`. -/
def IsEcc (g : Graph) (s : Int) (e : Nat) : Prop :=
  (∀ v n, Reach g.getNeighbors s v → IsDist g.getNeighbors s v n → n ≤ e) ∧
    ∃ v n, Reach g.getNeighbors s v ∧ IsDist g.getNeighbors s v n ∧ n = e

/-- A directed graph with the single edge 0 → 1 (vertex 1 is dangling). -/
def gDir : Graph := Graph.addEdge (Graph.mk [] true) 0 1

/-- An undirected graph whose start vertex is the parent sentinel `-1`. -/
def gNeg : Graph := Graph.addEdge (Graph.mk [] false) (-1) 0

/-- An undirected path 0 — 1. -/
def gPath : Graph := Graph.addEdge (Graph.mk [] false) 0 1

/-- An undirected edge 0 — 1 plus the isolated vertex 5. -/
def gTwo : Graph := Graph.addVertex (Graph.addEdge (Graph.mk [] false) 0 1) 5

/-- The grid of spec scenario B. -/
def cGrid : List (List Int) := [[0, 0, 0], [1, 1, 0], [0, 0, 0]]

/-- A grid whose start cell holds the value 2: not an obstacle, not walkable. -/
def cGrid2 : List (List Int) := [[2, 0]]

section CoreLemmas

variable {α : Type} [DecidableEq α]
variable {nbr : α → List α}

theorem nodup_length_le {l1 l2 : List α} (h1 : l1.Nodup) (h2 : ∀ x ∈ l1, x ∈ l2) :
    l1.length ≤ l2.length := by
  calc l1.length = l1.toFinset.card := (List.toFinset_card_of_nodup h1).symm
    _ ≤ l2.toFinset.card := Finset.card_le_card fun x hx => by
        simp only [List.mem_toFinset] at hx ⊢
        exact h2 x hx
    _ ≤ l2.length := l2.toFinset_card_le

theorem expand_eq (V Q ns : List α) : expand V Q ns = (V ++ news V ns, Q ++ news V ns) := by
  induction ns generalizing V Q with
  | nil => simp [expand, news]
  | cons n ns ih =>
    by_cases h : n ∈ V
    · simp [expand, news, h, ih]
    · simp [expand, news, h, ih, List.append_assoc]

theorem news_subset {V ns : List α} : ∀ x ∈ news V ns, x ∈ ns := by
  induction ns generalizing V with
  | nil => simp [news]
  | cons n ns ih =>
    intro x hx
    by_cases h : n ∈ V
    · simp only [news, if_pos h] at hx
      exact List.mem_cons_of_mem _ (ih x hx)
    · simp only [news, if_neg h, List.mem_cons] at hx
      rcases hx with rfl | hx
      · exact List.mem_cons_self _ _
      · exact List.mem_cons_of_mem _ (ih x hx)

theorem news_fresh {V ns : List α} : ∀ x ∈ news V ns, x ∉ V := by
  induction ns generalizing V with
  | nil => simp [news]
  | cons n ns ih =>
    intro x hx
    by_cases h : n ∈ V
    · simp only [news, if_pos h] at hx
      exact ih x hx
    · simp only [news, if_neg h, List.mem_cons] at hx
      rcases hx with rfl | hx
      · exact h
      · intro hxV
        exact ih x hx (List.mem_append_left _ hxV)

theorem news_nodup (V ns : List α) : (news V ns).Nodup := by
  induction ns generalizing V with
  | nil => simp [news]
  | cons n ns ih =>
    by_cases h : n ∈ V
    · simpa [news, if_pos h] using ih V
    · simp only [news, if_neg h]
      refine List.nodup_cons.2 ⟨fun hn => ?_, ih _⟩
      exact news_fresh _ hn (List.mem_append_right _ (List.mem_singleton.2 rfl))

theorem news_cover {V ns : List α} : ∀ x ∈ ns, x ∈ V ∨ x ∈ news V ns := by
  induction ns generalizing V with
  | nil => simp
  | cons n ns ih =>
    intro x hx
    by_cases h : n ∈ V
    · rcases List.mem_cons.1 hx with rfl | hx
      · exact Or.inl h
      · simpa [news, if_pos h] using ih x hx
    · rcases List.mem_cons.1 hx with rfl | hx
      · simp [news, if_neg h]
      · rcases @ih (V ++ [n]) x hx with hV | hN
        · rcases List.mem_append.1 hV with hV | hV
          · exact Or.inl hV
          · simp only [List.mem_singleton] at hV
            subst hV
            simp [news, if_neg h]
        · right
          simp [news, if_neg h, hN]

theorem news_append_nodup {V : List α} (h : V.Nodup) (ns : List α) : (V ++ news V ns).Nodup :=
  List.nodup_append.2 ⟨h, news_nodup V ns, fun x hx hx2 => news_fresh x hx2 hx⟩

theorem walkLen_snoc {s p q : α} {n : Nat} (h : WalkLen nbr s p n) (hq : q ∈ nbr p) :
    WalkLen nbr s q (n + 1) := by
  induction h with
  | refl v => exact WalkLen.cons hq (WalkLen.refl q)
  | cons e _ ih => exact WalkLen.cons e (ih hq)

theorem walkLen_last {a b : α} {k : Nat} (h : WalkLen nbr a b k) (hk : 0 < k) :
    ∃ p, WalkLen nbr a p (k - 1) ∧ b ∈ nbr p := by
  induction h with
  | refl v => exact absurd hk (by omega)
  | @cons u v w n e hw ih =>
    rcases Nat.eq_zero_or_pos n with h0 | hpos
    · subst h0
      cases hw
      exact ⟨u, WalkLen.refl u, e⟩
    · obtain ⟨p, hp, hbp⟩ := ih hpos
      refine ⟨p, ?_, hbp⟩
      have : n - 1 + 1 = n := by omega
      simpa [this] using WalkLen.cons e hp

theorem walkLen_trans {a b c : α} {n m : Nat} (h1 : WalkLen nbr a b n) (h2 : WalkLen nbr b c m) :
    WalkLen nbr a c (n + m) := by
  induction h1 with
  | refl v => simpa using h2
  | cons e _ ih =>
    have := WalkLen.cons e (ih h2)
    simpa [Nat.succ_add] using this

theorem isDist_unique {s v : α} {d1 d2 : Nat} (h1 : IsDist nbr s v d1) (h2 : IsDist nbr s v d2) :
    d1 = d2 :=
  le_antisymm (h1.2 _ h2.1) (h2.2 _ h1.1)

theorem exists_isDist_of_walk {s v : α} :
    ∀ n, WalkLen nbr s v n → ∃ d, IsDist nbr s v d := by
  intro n
  induction n using Nat.strong_induction_on with
  | _ n ih =>
    intro hn
    by_cases h : ∀ m, WalkLen nbr s v m → n ≤ m
    · exact ⟨n, hn, h⟩
    · push_neg at h
      obtain ⟨m, hm, hlt⟩ := h
      exact ih m hlt hm

theorem exists_isDist {s v : α} (h : Reach nbr s v) : ∃ d, IsDist nbr s v d := by
  obtain ⟨n, hn⟩ := h
  exact exists_isDist_of_walk n hn

theorem isDist_self (s : α) : IsDist nbr s s 0 :=
  ⟨WalkLen.refl s, fun m _ => Nat.zero_le m⟩

theorem isDist_zero {s v : α} : IsDist nbr s v 0 ↔ v = s := by
  constructor
  · intro h
    cases h.1
    rfl
  · rintro rfl
    exact isDist_self _

theorem isDist_reach {s v : α} {d : Nat} (h : IsDist nbr s v d) : Reach nbr s v := ⟨d, h.1⟩

theorem reach_self (s : α) : Reach nbr s s := ⟨0, WalkLen.refl s⟩

theorem reach_step {s u v : α} (h : Reach nbr s u) (hv : v ∈ nbr u) : Reach nbr s v := by
  obtain ⟨n, hn⟩ := h
  exact ⟨n + 1, walkLen_snoc hn hv⟩

theorem reach_trans {a b c : α} (h1 : Reach nbr a b) (h2 : Reach nbr b c) : Reach nbr a c := by
  obtain ⟨n, hn⟩ := h1
  obtain ⟨m, hm⟩ := h2
  exact ⟨n + m, walkLen_trans hn hm⟩

theorem isDist_pred {s v : α} {k : Nat} (h : IsDist nbr s v (k + 1)) :
    ∃ p, IsDist nbr s p k ∧ v ∈ nbr p := by
  obtain ⟨p, hw, he⟩ := walkLen_last h.1 (Nat.succ_pos k)
  simp only [Nat.add_sub_cancel] at hw
  obtain ⟨dp, hdp⟩ := exists_isDist_of_walk k hw
  have hle : dp ≤ k := hdp.2 _ hw
  have hge : k ≤ dp := by
    by_contra hlt
    push_neg at hlt
    have hv2 : WalkLen nbr s v (dp + 1) := walkLen_snoc hdp.1 he
    have := h.2 _ hv2
    omega
  have heq : dp = k := le_antisymm hle hge
  exact ⟨p, heq ▸ hdp, he⟩

theorem walkLen_reverse (hsym : ∀ a b : α, b ∈ nbr a → a ∈ nbr b) {a b : α} {n : Nat}
    (h : WalkLen nbr a b n) : WalkLen nbr b a n := by
  induction h with
  | refl v => exact WalkLen.refl v
  | cons e _ ih => simpa using walkLen_trans ih (WalkLen.cons (hsym _ _ e) (WalkLen.refl _))

theorem reach_symm (hsym : ∀ a b : α, b ∈ nbr a → a ∈ nbr b) {a b : α}
    (h : Reach nbr a b) : Reach nbr b a := by
  obtain ⟨n, hn⟩ := h
  exact ⟨n, walkLen_reverse hsym hn⟩

theorem isDist_symm (hsym : ∀ a b : α, b ∈ nbr a → a ∈ nbr b) {a b : α} {d : Nat}
    (h : IsDist nbr a b d) : IsDist nbr b a d :=
  ⟨walkLen_reverse hsym h.1, fun m hm => h.2 m (walkLen_reverse hsym hm)⟩

theorem closure_mem {V : List α} (hcl : ∀ v ∈ V, ∀ n ∈ nbr v, n ∈ V) {a b : α} {k : Nat}
    (h : WalkLen nbr a b k) (ha : a ∈ V) : b ∈ V := by
  induction h with
  | refl => exact ha
  | cons e _ ih => exact ih (hcl _ ha _ e)

end CoreLemmas

section InvLemmas

variable {α : Type} [DecidableEq α]
variable {nbr : α → List α}

theorem tinv_cmem {s c : α} {U D rest V : List α} (inv : TInv nbr s U D (c :: rest) V) :
    c ∈ V := by
  rw [inv.decomp]
  exact List.mem_append_right _ (List.mem_cons_self _ _)

theorem tinv_front_le {s c : α} {U D rest V : List α} (inv : TInv nbr s U D (c :: rest) V) :
    ∀ q ∈ rest, distLE nbr s c q := by
  have hpair := (List.pairwise_append.1 (inv.decomp ▸ inv.srt)).2.1
  exact (List.pairwise_cons.1 hpair).1

theorem tinv_done_le {s c : α} {U D rest V : List α} (inv : TInv nbr s U D (c :: rest) V) :
    ∀ v ∈ D, distLE nbr s v c := by
  intro v hv
  have hpair := (List.pairwise_append.1 (inv.decomp ▸ inv.srt)).2.2
  exact hpair v hv c (List.mem_cons_self _ _)

theorem tinv_complete {s : α} {U D rest V : List α} {c : α}
    (inv : TInv nbr s U D (c :: rest) V) {dc : Nat} (hdc : IsDist nbr s c dc) :
    ∀ du u, Reach nbr s u → IsDist nbr s u du → du ≤ dc → u ∈ V := by
  intro du
  induction du using Nat.strong_induction_on with
  | _ du ih =>
    intro u hru hdu hle
    rcases Nat.eq_zero_or_pos du with h0 | hpos
    · subst h0
      rw [isDist_zero.1 hdu]
      exact inv.smem
    · obtain ⟨k, rfl⟩ : ∃ k, du = k + 1 := ⟨du - 1, by omega⟩
      obtain ⟨p, hp, hup⟩ := isDist_pred hdu
      have hpD : p ∈ D := by
        apply inv.low p k (isDist_reach hp) hp
        intro q hq dq hdq
        rcases List.mem_cons.1 hq with rfl | hq
        · have := isDist_unique hdq hdc
          omega
        · have := tinv_front_le inv q hq dc dq hdc hdq
          omega
      exact inv.closed p hpD u hup

theorem tinv_fresh_dist {s : α} {U D rest V : List α} {c : α}
    (inv : TInv nbr s U D (c :: rest) V) {dc : Nat} (hdc : IsDist nbr s c dc)
    {n : α} (hn : n ∈ nbr c) (hfresh : n ∉ V) : IsDist nbr s n (dc + 1) := by
  have hrc : Reach nbr s c := inv.rch c (tinv_cmem inv)
  have hrn : Reach nbr s n := reach_step hrc hn
  obtain ⟨dn, hdn⟩ := exists_isDist hrn
  have hub : dn ≤ dc + 1 := hdn.2 _ (walkLen_snoc hdc.1 hn)
  have hlb : ¬ dn ≤ dc := fun hle => hfresh (tinv_complete inv hdc dn n hrn hdn hle)
  have heq : dn = dc + 1 := by omega
  exact heq ▸ hdn

theorem tinv_vdist_le {s : α} {U D rest V : List α} {c : α}
    (inv : TInv nbr s U D (c :: rest) V) {dc : Nat} (hdc : IsDist nbr s c dc) :
    ∀ v ∈ V, ∀ dv, IsDist nbr s v dv → dv ≤ dc + 1 := by
  intro v hv dv hdv
  rw [inv.decomp] at hv
  rcases List.mem_append.1 hv with hvD | hvQ
  · have := tinv_done_le inv v hvD dv dc hdv hdc
    omega
  · rcases List.mem_cons.1 hvQ with rfl | hvr
    · have := isDist_unique hdv hdc
      omega
    · exact inv.window c (by simp) v hvQ dv dc hdv hdc

theorem tinv_step {s : α} {U D rest V : List α} {c : α}
    (Hnb : ∀ x n, n ∈ nbr x → n ∈ U)
    (inv : TInv nbr s U D (c :: rest) V) :
    TInv nbr s U (D ++ [c]) (rest ++ news V (nbr c)) (V ++ news V (nbr c)) := by
  have hcV : c ∈ V := tinv_cmem inv
  have hrc : Reach nbr s c := inv.rch c hcV
  obtain ⟨dc, hdc⟩ := exists_isDist hrc
  have hNdist : ∀ n ∈ news V (nbr c), IsDist nbr s n (dc + 1) := fun n hn =>
    tinv_fresh_dist inv hdc (news_subset n hn) (news_fresh n hn)
  refine ⟨?_, ?_, ?_, ?_, ?_, ?_, ?_, ?_, ?_⟩
  · rw [inv.decomp]
    simp [List.append_assoc]
  · exact news_append_nodup inv.nd _
  · intro v hv
    rcases List.mem_append.1 hv with hv | hv
    · exact inv.insub v hv
    · exact Hnb c v (news_subset v hv)
  · intro v hv
    rcases List.mem_append.1 hv with hv | hv
    · exact inv.rch v hv
    · exact reach_step hrc (news_subset v hv)
  · refine List.pairwise_append.2 ⟨inv.srt, ?_, ?_⟩
    · refine List.Pairwise.imp_of_mem ?_ (List.pairwise_of_forall_mem_list fun a ha b hb => True.intro)
      intro a b ha hb _
      intro da db hda hdb
      have h1 := isDist_unique hda (hNdist a ha)
      have h2 := isDist_unique hdb (hNdist b hb)
      omega
    · intro v hv n hn da db hda hdb
      have h1 := tinv_vdist_le inv hdc v hv da hda
      have h2 := isDist_unique hdb (hNdist n hn)
      omega
  · intro f hf q hq dq df hdq hdf
    cases rest with
    | nil =>
      simp only [List.nil_append] at hf hq
      have hfN : f ∈ news V (nbr c) := List.mem_of_mem_head? hf
      have h1 := isDist_unique hdq (hNdist q hq)
      have h2 := isDist_unique hdf (hNdist f hfN)
      omega
    | cons r0 rtail =>
      have hfr : f = r0 := by
        simp only [List.cons_append, List.head?_cons, Option.mem_def, Option.some.injEq] at hf
        exact hf.symm
      have hcr0 : distLE nbr s c r0 := tinv_front_le inv r0 (List.mem_cons_self _ _)
      obtain ⟨dr, hdr⟩ := exists_isDist (inv.rch r0 (by
        rw [inv.decomp]
        exact List.mem_append_right _ (List.mem_cons_of_mem _ (List.mem_cons_self _ _))))
      have hdf2 : df = dr := by
        rw [hfr] at hdf
        exact isDist_unique hdf hdr
      have hdclef : dc ≤ dr := hcr0 dc dr hdc hdr
      rcases List.mem_append.1 hq with hq | hq
      · have := inv.window c (by simp) q (List.mem_cons_of_mem _ hq) dq dc hdq hdc
        omega
      · have := isDist_unique hdq (hNdist q hq)
        omega
  · intro u du hru hdu hprem
    cases hQ : rest ++ news V (nbr c) with
    | nil =>
      rcases List.append_eq_nil.1 hQ with ⟨hr, hN⟩
      have hclosedV : ∀ v ∈ V, ∀ n ∈ nbr v, n ∈ V := by
        intro v hv n hn
        rw [inv.decomp] at hv
        rcases List.mem_append.1 hv with hvD | hvQ
        · exact inv.closed v hvD n hn
        · rcases List.mem_cons.1 hvQ with rfl | hvr
          · rcases news_cover n hn with h | h
            · exact h
            · rw [hN] at h
              exact absurd h (List.not_mem_nil n)
          · rw [hr] at hvr
            exact absurd hvr (List.not_mem_nil v)
      obtain ⟨k, hk⟩ := hru
      have huV : u ∈ V := closure_mem hclosedV hk inv.smem
      rw [inv.decomp] at huV
      rcases List.mem_append.1 huV with h | h
      · exact List.mem_append_left _ h
      · rcases List.mem_cons.1 h with rfl | h
        · exact List.mem_append_right _ (List.mem_singleton.2 rfl)
        · rw [hr] at h
          exact absurd h (List.not_mem_nil u)
    | cons f t =>
      have hfQ : f ∈ rest ++ news V (nbr c) := by
        rw [hQ]
        exact List.mem_cons_self _ _
      have hfV : f ∈ V ++ news V (nbr c) := by
        rcases List.mem_append.1 hfQ with h | h
        · exact List.mem_append_left _ (by
            rw [inv.decomp]
            exact List.mem_append_right _ (List.mem_cons_of_mem _ h))
        · exact List.mem_append_right _ h
      have hrf : Reach nbr s f := by
        rcases List.mem_append.1 hfV with h | h
        · exact inv.rch f h
        · exact reach_step hrc (news_subset f h)
      obtain ⟨df, hdf⟩ := exists_isDist hrf
      have hlt : du < df := by
        apply hprem f _ df hdf
        rw [hQ]
        exact List.mem_cons_self _ _
      have hdfle : df ≤ dc + 1 := by
        rcases List.mem_append.1 hfQ with h | h
        · exact inv.window c (by simp) f (List.mem_cons_of_mem _ h) df dc hdf hdc
        · have := isDist_unique hdf (hNdist f h)
          omega
      have hdule : du ≤ dc := by omega
      have huV : u ∈ V := tinv_complete inv hdc du u hru hdu hdule
      rw [inv.decomp] at huV
      rcases List.mem_append.1 huV with h | h
      · exact List.mem_append_left _ h
      · rcases List.mem_cons.1 h with rfl | h
        · exact List.mem_append_right _ (List.mem_singleton.2 rfl)
        · exfalso
          have := hprem u (List.mem_append_left _ h) du hdu
          omega
  · intro v hv n hn
    rcases List.mem_append.1 hv with hvD | hvc
    · exact List.mem_append_left _ (inv.closed v hvD n hn)
    · have hvc2 : v = c := List.mem_singleton.1 hvc
      subst hvc2
      rcases news_cover n hn with h | h
      · exact List.mem_append_left _ h
      · exact List.mem_append_right _ h
  · exact List.mem_append_left _ inv.smem

theorem tinv_card {s : α} {U D Q V : List α} (inv : TInv nbr s U D Q V) :
    V.length ≤ U.length :=
  nodup_length_le inv.nd inv.insub

theorem bfsAux_master {s : α} {U : List α} (Hnb : ∀ x n, n ∈ nbr x → n ∈ U) :
    ∀ fuel (Q D V : List α), TInv nbr s U D Q V →
      Q.length + (U.length - V.length) ≤ fuel →
      ∃ N, bfsAux nbr fuel Q V = Q ++ N ∧ TInv nbr s U (V ++ N) [] (V ++ N) := by
  intro fuel
  induction fuel with
  | zero =>
    intro Q D V inv hfuel
    cases Q with
    | nil =>
      refine ⟨[], by simp [bfsAux], ?_⟩
      have hD : V = D := by simpa using inv.decomp
      simpa using hD ▸ inv
    | cons c rest => simp at hfuel
  | succ fuel ih =>
    intro Q D V inv hfuel
    cases Q with
    | nil =>
      refine ⟨[], by simp [bfsAux], ?_⟩
      have hD : V = D := by simpa using inv.decomp
      simpa using hD ▸ inv
    | cons c rest =>
      have inv2 := tinv_step Hnb inv
      have hlen : (V ++ news V (nbr c)).length ≤ U.length := tinv_card inv2
      have hfuel2 : (rest ++ news V (nbr c)).length +
          (U.length - (V ++ news V (nbr c)).length) ≤ fuel := by
        simp only [List.length_append, List.length_cons] at hfuel hlen ⊢
        omega
      obtain ⟨N, hrun, hfin⟩ := ih _ _ _ inv2 hfuel2
      refine ⟨news V (nbr c) ++ N, ?_, ?_⟩
      · simp only [bfsAux, expand_eq, hrun]
        simp [List.append_assoc]
      · simpa [List.append_assoc] using hfin

end InvLemmas

section SetLemmas

variable {α : Type} [DecidableEq α]

theorem length_eq_of_nodup_set_eq {l1 l2 : List α} (h1 : l1.Nodup) (h2 : l2.Nodup)
    (h : ∀ x, x ∈ l1 ↔ x ∈ l2) : l1.length = l2.length :=
  le_antisymm (nodup_length_le h1 fun x hx => (h x).1 hx)
    (nodup_length_le h2 fun x hx => (h x).2 hx)

theorem mem_of_subset_len_ge {l1 l2 : List α} (h1 : l1.Nodup) (h2 : l2.Nodup)
    (hsub : ∀ x ∈ l1, x ∈ l2) (hlen : l2.length ≤ l1.length) : ∀ x ∈ l2, x ∈ l1 := by
  have hfs : l1.toFinset ⊆ l2.toFinset := by
    intro x hx
    simp only [List.mem_toFinset] at hx ⊢
    exact hsub x hx
  have hcard : l2.toFinset.card ≤ l1.toFinset.card := by
    rw [List.toFinset_card_of_nodup h1, List.toFinset_card_of_nodup h2]
    exact hlen
  have heq := Finset.eq_of_subset_of_card_le hfs hcard
  intro x hx
  have : x ∈ l2.toFinset := List.mem_toFinset.2 hx
  rw [← heq] at this
  exact List.mem_toFinset.1 this

end SetLemmas

section GraphLemmas

theorem lookupAdj_mem {l : List (Int × List Int)} {v : Int} {ns : List Int}
    (h : lookupAdj l v = some ns) : (v, ns) ∈ l := by
  induction l with
  | nil => simp [lookupAdj] at h
  | cons p r ih =>
    obtain ⟨k, ks⟩ := p
    by_cases hk : k = v
    · subst hk
      simp only [lookupAdj, if_true, eq_self_iff_true, Option.some.injEq] at h
      rw [← h]
      exact List.mem_cons_self _ _
    · simp only [lookupAdj, if_neg hk] at h
      exact List.mem_cons_of_mem _ (ih h)

theorem getNeighbors_mem_adj {g : Graph} {x n : Int} (h : n ∈ g.getNeighbors x) :
    ∃ ns, lookupAdj g.adjList x = some ns ∧ n ∈ ns := by
  unfold Graph.getNeighbors at h
  cases hl : lookupAdj g.adjList x with
  | none =>
    rw [hl] at h
    simp at h
  | some ns =>
    rw [hl] at h
    exact ⟨ns, rfl, by simpa using h⟩

theorem getNeighbors_sub_uni (g : Graph) (s : Int) :
    ∀ x n, n ∈ g.getNeighbors x → n ∈ uniOf g s := by
  intro x n h
  obtain ⟨ns, hl, hn⟩ := getNeighbors_mem_adj h
  have hmem : (x, ns) ∈ g.adjList := lookupAdj_mem hl
  exact List.mem_cons_of_mem _
    (List.mem_flatMap.2 ⟨(x, ns), hmem, List.mem_cons_of_mem _ hn⟩)

theorem uniOf_length (g : Graph) (s : Int) : (uniOf g s).length = gBound g := by
  simp [uniOf, gBound]

theorem gBound_pos (g : Graph) : 1 ≤ gBound g := by
  simp [gBound]

theorem hasVertex_iff_mem_keys {g : Graph} {v : Int} :
    g.hasVertex v = true ↔ v ∈ g.getAllVertices := by
  unfold Graph.hasVertex Graph.getAllVertices
  induction g.adjList with
  | nil => simp [lookupAdj]
  | cons p r ih =>
    obtain ⟨k, ks⟩ := p
    by_cases hk : k = v
    · subst hk
      simp [lookupAdj]
    · simp only [lookupAdj, if_neg hk, List.map_cons, List.mem_cons]
      rw [ih]
      constructor
      · exact Or.inr
      · rintro (h | h)
        · exact absurd h.symm hk
        · exact h

theorem walk_hasVertex {g : Graph} (hc : GClosed g) {a b : Int} {n : Nat}
    (hn : WalkLen g.getNeighbors a b n) : g.hasVertex a = true → g.hasVertex b = true := by
  induction hn with
  | refl v => exact id
  | cons e _ ih => exact fun _ => ih (hc _ _ e)

theorem gclosed_of_entries {g : Graph}
    (h : ∀ p ∈ g.adjList, ∀ n ∈ p.2, g.hasVertex n = true) : GClosed g := by
  intro a b hb
  obtain ⟨ns, hl, hn⟩ := getNeighbors_mem_adj hb
  exact h (a, ns) (lookupAdj_mem hl) b hn

theorem gsymm_of_entries {g : Graph}
    (h : ∀ p ∈ g.adjList, ∀ n ∈ p.2, p.1 ∈ g.getNeighbors n) : GSymm g := by
  intro a b hb
  obtain ⟨ns, hl, hn⟩ := getNeighbors_mem_adj hb
  exact h (a, ns) (lookupAdj_mem hl) b hn

theorem tinv_init (g : Graph) (k : Int) :
    TInv g.getNeighbors k (uniOf g k) [] [k] [k] := by
  refine ⟨by simp, by simp, ?_, ?_, by simp, ?_, ?_, ?_, List.mem_singleton.2 rfl⟩
  · intro v hv
    rw [List.mem_singleton.1 hv]
    exact List.mem_cons_self _ _
  · intro v hv
    rw [List.mem_singleton.1 hv]
    exact reach_self k
  · intro f hf q hq dq df hdq hdf
    simp only [List.head?_cons, Option.mem_def, Option.some.injEq] at hf
    rw [List.mem_singleton.1 hq] at hdq
    rw [← hf] at hdf
    have := isDist_unique hdq hdf
    omega
  · intro u du _ _ hprem
    have := hprem k (List.mem_singleton.2 rfl) 0 (isDist_self k)
    omega
  · intro v hv
    simp at hv

theorem comp_spec (g : Graph) (k : Int) :
    (comp g k).Nodup ∧ (∀ v, v ∈ comp g k ↔ Reach g.getNeighbors k v) ∧
      (comp g k).Pairwise (distLE g.getNeighbors k) := by
  obtain ⟨N, hrun, hfin⟩ := bfsAux_master (getNeighbors_sub_uni g k) (gBound g) [k] [] [k]
    (tinv_init g k)
    (by
      rw [uniOf_length]
      have := gBound_pos g
      simp only [List.length_singleton]
      omega)
  have hc : comp g k = [k] ++ N := hrun
  refine ⟨?_, ?_, ?_⟩
  · rw [hc]
    exact hfin.nd
  · intro v
    rw [hc]
    constructor
    · exact hfin.rch v
    · intro hr
      obtain ⟨d, hd⟩ := exists_isDist hr
      exact hfin.low v d hr hd fun q hq => absurd hq (List.not_mem_nil q)
  · rw [hc]
    exact hfin.srt

theorem comp_nodup (g : Graph) (k : Int) : (comp g k).Nodup := (comp_spec g k).1

theorem mem_comp {g : Graph} {k : Int} (v : Int) :
    v ∈ comp g k ↔ Reach g.getNeighbors k v := (comp_spec g k).2.1 v

theorem comp_self_mem (g : Graph) (k : Int) : k ∈ comp g k :=
  (mem_comp k).2 (reach_self k)

theorem traverse_eq_comp {g : Graph} {s : Int} (h : g.hasVertex s = true) :
    traverse g s = comp g s := by
  simp [traverse, h]

theorem traverse_nil {g : Graph} {s : Int} (h : g.hasVertex s = false) :
    traverse g s = [] := by
  simp [traverse, h]

theorem mem_traverse {g : Graph} {s : Int} (h : g.hasVertex s = true) (v : Int) :
    v ∈ traverse g s ↔ Reach g.getNeighbors s v := by
  rw [traverse_eq_comp h]
  exact mem_comp v

end GraphLemmas

section ComponentLemmas

theorem fccAux_nil_of (g : Graph) :
    ∀ ks gv : List Int, (∀ k ∈ ks, k ∈ gv) → fccAux g ks gv = [] := by
  intro ks
  induction ks with
  | nil => simp [fccAux]
  | cons k ks ih =>
    intro gv h
    have hk : k ∈ gv := h k (List.mem_cons_self _ _)
    simp only [fccAux, if_pos hk]
    exact ih gv fun x hx => h x (List.mem_cons_of_mem _ hx)

theorem fccAux_all_of_nil (g : Graph) :
    ∀ ks gv : List Int, fccAux g ks gv = [] → ∀ k ∈ ks, k ∈ gv := by
  intro ks
  induction ks with
  | nil => simp
  | cons k ks ih =>
    intro gv h x hx
    by_cases hk : k ∈ gv
    · simp only [fccAux, if_pos hk] at h
      rcases List.mem_cons.1 hx with rfl | hx2
      · exact hk
      · exact ih gv h x hx2
    · simp [fccAux, if_neg hk] at h

theorem fccAux_seed (g : Graph) :
    ∀ ks gv c, c ∈ fccAux g ks gv → ∃ k, k ∈ ks ∧ k ∉ gv ∧ c = comp g k := by
  intro ks
  induction ks with
  | nil => simp [fccAux]
  | cons k ks ih =>
    intro gv c hc
    by_cases hk : k ∈ gv
    · simp only [fccAux, if_pos hk] at hc
      obtain ⟨k2, h1, h2, h3⟩ := ih gv c hc
      exact ⟨k2, List.mem_cons_of_mem _ h1, h2, h3⟩
    · simp only [fccAux, if_neg hk, List.mem_cons] at hc
      rcases hc with rfl | hc
      · exact ⟨k, List.mem_cons_self _ _, hk, rfl⟩
      · obtain ⟨k2, h1, h2, h3⟩ := ih _ c hc
        exact ⟨k2, List.mem_cons_of_mem _ h1,
          fun hmem => h2 (List.mem_append_left _ hmem), h3⟩

theorem fccAux_cover (g : Graph) :
    ∀ ks gv : List Int, ∀ k ∈ ks, k ∈ gv ∨ ∃ c ∈ fccAux g ks gv, k ∈ c := by
  intro ks
  induction ks with
  | nil => simp
  | cons k0 ks ih =>
    intro gv k hk
    by_cases h0 : k0 ∈ gv
    · simp only [fccAux, if_pos h0]
      rcases List.mem_cons.1 hk with rfl | hk2
      · exact Or.inl h0
      · exact ih gv k hk2
    · simp only [fccAux, if_neg h0]
      rcases List.mem_cons.1 hk with rfl | hk2
      · exact Or.inr ⟨comp g k, List.mem_cons_self _ _, comp_self_mem g k⟩
      · rcases ih (gv ++ comp g k0) k hk2 with hin | ⟨c, hc, hkc⟩
        · rcases List.mem_append.1 hin with h | h
          · exact Or.inl h
          · exact Or.inr ⟨comp g k0, List.mem_cons_self _ _, h⟩
        · exact Or.inr ⟨c, List.mem_cons_of_mem _ hc, hkc⟩

theorem fccAux_disj (g : Graph) (hs : GSymm g) :
    ∀ ks gv : List Int, List.Pairwise (fun c d => ∀ x, x ∈ c → x ∉ d) (fccAux g ks gv) := by
  intro ks
  induction ks with
  | nil => simp [fccAux]
  | cons k ks ih =>
    intro gv
    by_cases hk : k ∈ gv
    · simpa [fccAux, if_pos hk] using ih gv
    · simp only [fccAux, if_neg hk]
      refine List.pairwise_cons.2 ⟨?_, ih _⟩
      intro c hc x hx1 hx2
      obtain ⟨k2, hk2s, hk2n, rfl⟩ := fccAux_seed g ks (gv ++ comp g k) c hc
      have h1 : Reach g.getNeighbors k x := (mem_comp x).1 hx1
      have h2 : Reach g.getNeighbors k2 x := (mem_comp x).1 hx2
      have h3 : Reach g.getNeighbors k k2 := reach_trans h1 (reach_symm hs h2)
      exact hk2n (List.mem_append_right _ ((mem_comp k2).2 h3))

end ComponentLemmas

section ClaimsComponents

theorem comp_sub_keys {g : Graph} (hcl : GClosed g) {k : Int} (hk : g.hasVertex k = true) :
    ∀ x ∈ comp g k, x ∈ g.getAllVertices := by
  intro x hx
  obtain ⟨n, hw⟩ := (mem_comp x).1 hx
  exact hasVertex_iff_mem_keys.1 (walk_hasVertex hcl hw hk)

/-- C3 (amended): for every graph whose adjacency entries are all themselves
vertices and whose adjacency relation is symmetric (in particular every graph
built undirected), `findConnectedComponents` partitions `getAllVertices`:
components are pairwise disjoint and their union is exactly the vertex set. -/
theorem c3_components_partition (g : Graph) (hcl : GClosed g) (hs : GSymm g) :
    List.Pairwise (fun c d => ∀ x, x ∈ c → x ∉ d) (findConnectedComponents g) ∧
      ∀ x, (∃ c ∈ findConnectedComponents g, x ∈ c) ↔ x ∈ g.getAllVertices := by
  constructor
  · exact fccAux_disj g hs _ []
  · intro x
    constructor
    · rintro ⟨c, hc, hx⟩
      obtain ⟨k, hks, _, rfl⟩ := fccAux_seed g _ _ c hc
      exact comp_sub_keys hcl (hasVertex_iff_mem_keys.2 hks) x hx
    · intro hx
      rcases fccAux_cover g _ [] x hx with h | h
      · exact absurd h (List.not_mem_nil x)
      · exact h

/-- C3 counterexample: on the directed graph with the single edge 0 → 1 the
destination vertex 1 lies in a component but not in `getAllVertices`, so the
components do not partition the vertex set of an arbitrary graph. -/
theorem c3_counterexample :
    (∃ c ∈ findConnectedComponents gDir, (1 : Int) ∈ c) ∧
      (1 : Int) ∉ gDir.getAllVertices := by
  decide

/-- C3 witness: the amended partition statement holds on the undirected graph
with edge 0 — 1 and isolated vertex 5. -/
theorem c3_witness :
    GClosed gTwo ∧ GSymm gTwo ∧
      (List.Pairwise (fun c d => ∀ x, x ∈ c → x ∉ d) (findConnectedComponents gTwo) ∧
        ∀ x, (∃ c ∈ findConnectedComponents gTwo, x ∈ c) ↔ x ∈ gTwo.getAllVertices) := by
  have hcl : GClosed gTwo := gclosed_of_entries (by decide)
  have hs : GSymm gTwo := gsymm_of_entries (by decide)
  exact ⟨hcl, hs, c3_components_partition gTwo hcl hs⟩

/-- C5 (amended): for every graph whose adjacency entries are all themselves
vertices (with the well-formedness of the C++ map: pairwise distinct keys),
`isConnected` is true iff `findConnectedComponents` yields exactly one
component, or zero components for the empty graph. -/
theorem c5_isConnected_iff_components (g : Graph) (hcl : GClosed g)
    (hw : g.getAllVertices.Nodup) :
    isConnected g = true ↔
      ((findConnectedComponents g).length = 1 ∨
        (g.adjList = [] ∧ (findConnectedComponents g).length = 0)) := by
  cases hA : g.getAllVertices with
  | nil =>
    have hadj : g.adjList = [] := by
      unfold Graph.getAllVertices at hA
      exact List.map_eq_nil_iff.1 hA
    constructor
    · intro _
      right
      refine ⟨hadj, ?_⟩
      unfold findConnectedComponents
      rw [hA]
      simp [fccAux]
    · intro _
      simp [isConnected, hA]
  | cons k0 kr =>
    have hk0 : g.hasVertex k0 = true := hasVertex_iff_mem_keys.2 (by
      rw [hA]
      exact List.mem_cons_self _ _)
    have hknodup : (k0 :: kr).Nodup := hA ▸ hw
    have hsub : ∀ x ∈ comp g k0, x ∈ k0 :: kr := fun x hx =>
      hA ▸ comp_sub_keys hcl hk0 x hx
    have hfcc : findConnectedComponents g = comp g k0 :: fccAux g kr (comp g k0) := by
      unfold findConnectedComponents
      rw [hA]
      simp [fccAux]
    have hico : isConnected g = decide ((traverse g k0).length = (k0 :: kr).length) := by
      unfold isConnected
      rw [hA]
      simp
    have htr : traverse g k0 = comp g k0 := traverse_eq_comp hk0
    rw [hico, hfcc]
    constructor
    · intro h
      have hlen : (comp g k0).length = (k0 :: kr).length := by
        rw [← htr]
        exact of_decide_eq_true h
      left
      have hcov : ∀ x ∈ k0 :: kr, x ∈ comp g k0 :=
        mem_of_subset_len_ge (comp_nodup g k0) hknodup hsub (le_of_eq hlen.symm)
      have hnil : fccAux g kr (comp g k0) = [] :=
        fccAux_nil_of g kr _ fun k hk => hcov k (List.mem_cons_of_mem _ hk)
      simp [hnil]
    · rintro (h | ⟨hadj, _⟩)
      · have hnil : fccAux g kr (comp g k0) = [] := by
          simp only [List.length_cons] at h
          exact List.length_eq_zero.1 (by omega)
        have hcov : ∀ k ∈ kr, k ∈ comp g k0 := fccAux_all_of_nil g kr _ hnil
        have hcov2 : ∀ x ∈ k0 :: kr, x ∈ comp g k0 := by
          intro x hx
          rcases List.mem_cons.1 hx with rfl | hx
          · exact comp_self_mem g x
          · exact hcov x hx
        have hlen : (comp g k0).length = (k0 :: kr).length :=
          length_eq_of_nodup_set_eq (comp_nodup g k0) hknodup
            fun x => ⟨fun hx => hsub x hx, fun hx => hcov2 x hx⟩
        rw [← htr] at hlen
        exact decide_eq_true hlen
      · exfalso
        have h0 : g.getAllVertices = [] := by
          unfold Graph.getAllVertices
          rw [hadj]
          rfl
        rw [hA] at h0
        exact List.cons_ne_nil _ _ h0

/-- C5 counterexample: on the directed graph with the single edge 0 → 1,
`isConnected` is false (the traversal visits the dangling vertex 1, so its
length 2 differs from the vertex count 1) while `findConnectedComponents`
returns exactly one component. -/
theorem c5_counterexample :
    isConnected gDir = false ∧ (findConnectedComponents gDir).length = 1 := by
  decide

/-- C5 witness: the amended equivalence holds on the undirected graph with edge
0 — 1 and isolated vertex 5 (both sides false: two components). -/
theorem c5_witness :
    GClosed gTwo ∧ gTwo.getAllVertices.Nodup ∧
      (isConnected gTwo = true ↔
        ((findConnectedComponents gTwo).length = 1 ∨
          (gTwo.adjList = [] ∧ (findConnectedComponents gTwo).length = 0))) := by
  have hcl : GClosed gTwo := gclosed_of_entries (by decide)
  exact ⟨hcl, by decide, c5_isConnected_iff_components gTwo hcl (by decide)⟩

/-- C8: in any run of `traverse` every vertex appears at most once, and the
discovery order is non-decreasing in true graph distance from the start: if
`u` appears before `v` then the distance of `u` is at most that of `v`. -/
theorem c8_traverse_discovery_order (g : Graph) (s : Int) :
    (traverse g s).Nodup ∧ (traverse g s).Pairwise (distLE g.getNeighbors s) := by
  by_cases h : g.hasVertex s = true
  · rw [traverse_eq_comp h]
    exact ⟨(comp_spec g s).1, (comp_spec g s).2.2⟩
  · rw [traverse_nil (by simpa using h)]
    exact ⟨List.nodup_nil, List.Pairwise.nil⟩

end ClaimsComponents

section SDLemmas

variable {α : Type} [DecidableEq α]
variable {nbr : α → List α}

theorem sdScan_found {t : α} {d : Int} :
    ∀ (ns V : List α) (Q : List (α × Int)), t ∈ ns → sdScan t d ns V Q = Sum.inl (d + 1) := by
  intro ns
  induction ns with
  | nil => simp
  | cons n ns ih =>
    intro V Q ht
    by_cases hn : n = t
    · simp [sdScan, hn]
    · rcases List.mem_cons.1 ht with h | h
      · exact absurd h.symm hn
      · by_cases hv : n ∈ V
        · simp [sdScan, hn, hv, ih _ _ h]
        · simp [sdScan, hn, hv, ih _ _ h]

theorem sdScan_not_found {t : α} {d : Int} :
    ∀ (ns V : List α) (Q : List (α × Int)), t ∉ ns →
      sdScan t d ns V Q =
        Sum.inr (V ++ news V ns, Q ++ (news V ns).map (fun n => (n, d + 1))) := by
  intro ns
  induction ns with
  | nil => simp [sdScan, news]
  | cons n ns ih =>
    intro V Q ht
    have hn : ¬ n = t := fun h => ht (h ▸ List.mem_cons_self _ _)
    have ht2 : t ∉ ns := fun h => ht (List.mem_cons_of_mem _ h)
    by_cases hv : n ∈ V
    · simp [sdScan, hn, hv, ih _ _ ht2, news]
    · simp only [sdScan, if_neg hn, if_neg hv, ih _ _ ht2]
      simp [news, if_neg hv, List.append_assoc]

theorem sdinv_step {s t : α} {U D V : List α} {c : α} {dc : Int} {rest : List (α × Int)}
    (Hnb : ∀ x n, n ∈ nbr x → n ∈ U)
    (inv : SDInv nbr s t U D ((c, dc) :: rest) V) (ht : t ∉ nbr c) :
    SDInv nbr s t U (D ++ [c]) (rest ++ (news V (nbr c)).map (fun n => (n, dc + 1)))
      (V ++ news V (nbr c)) := by
  have hbase : TInv nbr s U D (c :: rest.map Prod.fst) V := by simpa using inv.base
  obtain ⟨dcn, hdc, hdcd⟩ := inv.pay (c, dc) (List.mem_cons_self _ _)
  have hdc2 : dc = (dcn : Int) := hdc
  have hdcd2 : IsDist nbr s c dcn := hdcd
  refine ⟨?_, ?_, ?_⟩
  · have h2 : (rest ++ (news V (nbr c)).map (fun n => (n, dc + 1))).map Prod.fst =
        rest.map Prod.fst ++ news V (nbr c) := by
      simp [Function.comp_def]
    rw [h2]
    exact tinv_step Hnb hbase
  · intro p hp
    rcases List.mem_append.1 hp with hp | hp
    · exact inv.pay p (List.mem_cons_of_mem _ hp)
    · obtain ⟨n, hn, rfl⟩ := List.mem_map.1 hp
      refine ⟨dcn + 1, ?_, ?_⟩
      · show dc + 1 = ((dcn + 1 : Nat) : Int)
        rw [hdc2]
        push_cast
        ring
      · exact tinv_fresh_dist hbase hdcd2 (news_subset n hn) (news_fresh n hn)
  · intro hmem
    rcases List.mem_append.1 hmem with h | h
    · exact inv.tmiss h
    · exact ht (news_subset t h)

theorem sdAux_master {s t : α} {U : List α} (Hnb : ∀ x n, n ∈ nbr x → n ∈ U) :
    ∀ (fuel : Nat) (Q : List (α × Int)) (D V : List α), SDInv nbr s t U D Q V →
      Q.length + (U.length - V.length) ≤ fuel →
      (∀ dn : Nat, IsDist nbr s t dn → sdAux nbr t fuel Q V = (dn : Int)) ∧
        (¬ Reach nbr s t → sdAux nbr t fuel Q V = -1) := by
  intro fuel
  induction fuel with
  | zero =>
    intro Q D V inv hfuel
    cases Q with
    | nil =>
      constructor
      · intro dn hdn
        exfalso
        have hD : t ∈ D := inv.base.low t dn (isDist_reach hdn) hdn
          fun q hq => absurd hq (List.not_mem_nil q)
        have : t ∈ V := by
          rw [inv.base.decomp]
          simpa using hD
        exact inv.tmiss this
      · intro _
        rfl
    | cons p rest => simp at hfuel
  | succ fuel ih =>
    intro Q D V inv hfuel
    cases Q with
    | nil =>
      constructor
      · intro dn hdn
        exfalso
        have hD : t ∈ D := inv.base.low t dn (isDist_reach hdn) hdn
          fun q hq => absurd hq (List.not_mem_nil q)
        have : t ∈ V := by
          rw [inv.base.decomp]
          simpa using hD
        exact inv.tmiss this
      · intro _
        rfl
    | cons p rest =>
      obtain ⟨c, dc⟩ := p
      have hbase : TInv nbr s U D (c :: rest.map Prod.fst) V := by simpa using inv.base
      obtain ⟨dcn, hdc, hdcd⟩ := inv.pay (c, dc) (List.mem_cons_self _ _)
      by_cases ht : t ∈ nbr c
      · have hrun : sdAux nbr t (fuel + 1) ((c, dc) :: rest) V = dc + 1 := by
          simp [sdAux, sdScan_found _ _ _ ht]
        have hrt : Reach nbr s t := reach_step (hbase.rch c (tinv_cmem hbase)) ht
        obtain ⟨dt, hdt⟩ := exists_isDist hrt
        have hub : dt ≤ dcn + 1 := hdt.2 _ (walkLen_snoc hdcd.1 ht)
        have hlb : ¬ dt ≤ dcn := fun hle =>
          inv.tmiss (tinv_complete hbase hdcd dt t hrt hdt hle)
        have hdt2 : dt = dcn + 1 := by omega
        constructor
        · intro dn hdn
          have hdc2 : dc = (dcn : Int) := hdc
          have hde : dn = dt := isDist_unique hdn hdt
          rw [hrun, hde, hdt2, hdc2]
          push_cast
          ring
        · intro h
          exact absurd hrt h
      · have hrun : sdAux nbr t (fuel + 1) ((c, dc) :: rest) V =
            sdAux nbr t fuel (rest ++ (news V (nbr c)).map (fun n => (n, dc + 1)))
              (V ++ news V (nbr c)) := by
          simp [sdAux, sdScan_not_found _ _ _ ht]
        have inv2 := sdinv_step Hnb inv ht
        have hlen : (V ++ news V (nbr c)).length ≤ U.length := tinv_card inv2.base
        have hfuel2 : (rest ++ (news V (nbr c)).map (fun n => (n, dc + 1))).length +
            (U.length - (V ++ news V (nbr c)).length) ≤ fuel := by
          simp only [List.length_append, List.length_cons, List.length_map] at hfuel hlen ⊢
          omega
        obtain ⟨h1, h2⟩ := ih _ _ _ inv2 hfuel2
        rw [hrun]
        exact ⟨h1, h2⟩

theorem sdinv_init (g : Graph) {s t : Int} (hst : s ≠ t) :
    SDInv g.getNeighbors s t (uniOf g s) [] [(s, 0)] [s] := by
  refine ⟨by simpa using tinv_init g s, ?_, ?_⟩
  · intro p hp
    rw [List.mem_singleton.1 hp]
    exact ⟨0, by simp, isDist_self s⟩
  · intro h
    exact hst (List.mem_singleton.1 h).symm

theorem shortestDistance_eq_dist {g : Graph} {s t : Int} (hs : g.hasVertex s = true)
    (ht : g.hasVertex t = true) (hst : s ≠ t) {dn : Nat}
    (hd : IsDist g.getNeighbors s t dn) : shortestDistance g s t = (dn : Int) := by
  have hcond : ¬ (g.hasVertex s = false ∨ g.hasVertex t = false) := by
    simp [hs, ht]
  simp only [shortestDistance, if_neg hcond, if_neg hst]
  apply (sdAux_master (getNeighbors_sub_uni g s) (gBound g) [(s, 0)] [] [s]
    (sdinv_init g hst) ?_).1 dn hd
  rw [uniOf_length]
  have := gBound_pos g
  simp only [List.length_singleton]
  omega

theorem shortestDistance_unreach_aux {g : Graph} {s t : Int} (hs : g.hasVertex s = true)
    (ht : g.hasVertex t = true) (hst : s ≠ t) (h : ¬ Reach g.getNeighbors s t) :
    shortestDistance g s t = -1 := by
  have hcond : ¬ (g.hasVertex s = false ∨ g.hasVertex t = false) := by
    simp [hs, ht]
  simp only [shortestDistance, if_neg hcond, if_neg hst]
  apply (sdAux_master (getNeighbors_sub_uni g s) (gBound g) [(s, 0)] [] [s]
    (sdinv_init g hst) ?_).2 h
  rw [uniOf_length]
  have := gBound_pos g
  simp only [List.length_singleton]
  omega

theorem shortestDistance_absent {g : Graph} {s t : Int}
    (h : g.hasVertex s = false ∨ g.hasVertex t = false) : shortestDistance g s t = -1 := by
  simp only [shortestDistance, if_pos h]

theorem shortestDistance_self {g : Graph} {s : Int} (h : g.hasVertex s = true) :
    shortestDistance g s s = 0 := by
  have hcond : ¬ (g.hasVertex s = false ∨ g.hasVertex s = false) := by
    simp [h]
  simp [shortestDistance, if_neg hcond, h]

theorem shortestDistance_of_unreach {g : Graph} {s t : Int}
    (h : ¬ Reach g.getNeighbors s t) : shortestDistance g s t = -1 := by
  by_cases hs : g.hasVertex s = true
  · by_cases ht : g.hasVertex t = true
    · by_cases hst : s = t
      · exact absurd (hst ▸ reach_self s) h
      · exact shortestDistance_unreach_aux hs ht hst h
    · exact shortestDistance_absent (Or.inr (by simpa using ht))
  · exact shortestDistance_absent (Or.inl (by simpa using hs))

end SDLemmas

section SymmLemmas

theorem lookupAdj_pushNeighbor_same (l : List (Int × List Int)) (a b : Int) :
    lookupAdj (pushNeighbor l a b) a = some ((lookupAdj l a).getD [] ++ [b]) := by
  induction l with
  | nil => simp [pushNeighbor, lookupAdj]
  | cons p r ih =>
    obtain ⟨k, ks⟩ := p
    by_cases hk : k = a
    · subst hk
      simp [pushNeighbor, lookupAdj]
    · simp [pushNeighbor, lookupAdj, hk, ih]

theorem lookupAdj_pushNeighbor_ne (l : List (Int × List Int)) (a b x : Int) (hx : x ≠ a) :
    lookupAdj (pushNeighbor l a b) x = lookupAdj l x := by
  induction l with
  | nil =>
    have : a ≠ x := fun h => hx h.symm
    simp [pushNeighbor, lookupAdj, this]
  | cons p r ih =>
    obtain ⟨k, ks⟩ := p
    by_cases hk : k = a
    · subst hk
      have : k ≠ x := fun h => hx h.symm
      simp [pushNeighbor, lookupAdj, this]
    · by_cases hkx : k = x
      · subst hkx
        simp [pushNeighbor, lookupAdj, hk]
      · simp [pushNeighbor, lookupAdj, hk, hkx, ih]

theorem mem_neighbors_pushNeighbor {l : List (Int × List Int)} {a b x n : Int} :
    n ∈ (lookupAdj (pushNeighbor l a b) x).getD [] ↔
      n ∈ (lookupAdj l x).getD [] ∨ (x = a ∧ n = b) := by
  by_cases hx : x = a
  · subst hx
    rw [lookupAdj_pushNeighbor_same]
    simp
  · rw [lookupAdj_pushNeighbor_ne _ _ _ _ hx]
    simp [hx]

theorem mem_lookup_append_empty {l : List (Int × List Int)} {v x n : Int} :
    n ∈ (lookupAdj (l ++ [(v, [])]) x).getD [] ↔ n ∈ (lookupAdj l x).getD [] := by
  induction l with
  | nil => by_cases h : v = x <;> simp [lookupAdj, h]
  | cons p r ih =>
    obtain ⟨k, ks⟩ := p
    by_cases h : k = x <;> simp [lookupAdj, h, ih]

theorem gsymm_addVertex {g : Graph} (h : GSymm g) (v : Int) : GSymm (g.addVertex v) := by
  intro a b hb
  unfold Graph.addVertex at *
  by_cases hv : (lookupAdj g.adjList v).isSome
  · rw [if_pos hv] at hb ⊢
    exact h a b hb
  · rw [if_neg hv] at hb ⊢
    unfold Graph.getNeighbors at hb ⊢
    simp only [mem_lookup_append_empty] at hb ⊢
    exact h a b hb

theorem gsymm_addEdge {g : Graph} (hd : g.isDirected = false) (h : GSymm g) (a b : Int) :
    GSymm (g.addEdge a b) := by
  intro x n hn
  unfold Graph.addEdge at *
  rw [hd] at hn ⊢
  simp only [Bool.false_eq_true, if_false] at hn ⊢
  unfold Graph.getNeighbors at hn ⊢
  simp only [mem_neighbors_pushNeighbor] at hn ⊢
  rcases hn with ((hn | ⟨rfl, rfl⟩) | ⟨rfl, rfl⟩)
  · exact Or.inl (Or.inl (h x n hn))
  · exact Or.inr ⟨rfl, rfl⟩
  · exact Or.inl (Or.inr ⟨rfl, rfl⟩)

theorem addVertex_isDirected (g : Graph) (v : Int) :
    (g.addVertex v).isDirected = g.isDirected := by
  unfold Graph.addVertex
  by_cases h : (lookupAdj g.adjList v).isSome <;> simp [h]

theorem addEdge_isDirected (g : Graph) (a b : Int) :
    (g.addEdge a b).isDirected = g.isDirected := by
  unfold Graph.addEdge
  by_cases h : g.isDirected <;> simp [h]

theorem ub_directed {g : Graph} (h : UndirectedBuilt g) : g.isDirected = false := by
  induction h with
  | nil => rfl
  | addV v _ ih => rwa [addVertex_isDirected]
  | addE a b _ ih => rwa [addEdge_isDirected]

theorem ub_symm {g : Graph} (h : UndirectedBuilt g) : GSymm g := by
  induction h with
  | nil => intro a b hb; simp [Graph.getNeighbors, lookupAdj] at hb
  | addV v _ ih => exact gsymm_addVertex ih v
  | addE a b hub ih => exact gsymm_addEdge (ub_directed hub) ih a b

/-- C10: for every graph constructed as undirected using only `addVertex` and
`addEdge`, `shortestDistance` is symmetric in its two vertex arguments. -/
theorem c10_shortestDistance_symm (g : Graph) (hb : UndirectedBuilt g) (u v : Int) :
    shortestDistance g u v = shortestDistance g v u := by
  have hs : GSymm g := ub_symm hb
  by_cases hu : g.hasVertex u = true
  · by_cases hv : g.hasVertex v = true
    · by_cases huv : u = v
      · rw [huv]
      · by_cases hr : Reach g.getNeighbors u v
        · obtain ⟨d, hd⟩ := exists_isDist hr
          rw [shortestDistance_eq_dist hu hv huv hd,
            shortestDistance_eq_dist hv hu (Ne.symm huv) (isDist_symm hs hd)]
        · rw [shortestDistance_of_unreach hr,
            shortestDistance_of_unreach fun h2 => hr (reach_symm hs h2)]
    · rw [shortestDistance_absent (Or.inr (by simpa using hv)),
        shortestDistance_absent (Or.inl (by simpa using hv))]
  · rw [shortestDistance_absent (Or.inl (by simpa using hu)),
      shortestDistance_absent (Or.inr (by simpa using hu))]

/-- C10 witness: the symmetry instance on the concrete undirected path 0 — 1. -/
theorem c10_witness :
    UndirectedBuilt gPath ∧ shortestDistance gPath 0 1 = shortestDistance gPath 1 0 := by
  have hb : UndirectedBuilt gPath := UndirectedBuilt.addE 0 1 UndirectedBuilt.nil
  exact ⟨hb, c10_shortestDistance_symm gPath hb 0 1⟩

end SymmLemmas

section ClaimAddEdge

/-- C2 (amended): `addEdge(u, v)` always creates the source vertex `u`; it
also creates the destination `v` when the graph is undirected, but a directed
`addEdge` leaves an absent `v` absent (only `adjList[from]` is touched). -/
theorem c2_addEdge_creates (g : Graph) (u v : Int) :
    (g.addEdge u v).hasVertex u = true ∧
      (g.isDirected = false → (g.addEdge u v).hasVertex v = true) := by
  unfold Graph.addEdge Graph.hasVertex
  by_cases hd : g.isDirected = true
  · simp only [hd, if_true]
    constructor
    · rw [lookupAdj_pushNeighbor_same]
      rfl
    · intro h
      exact absurd h (by simp [hd])
  · have hd2 : g.isDirected = false := by simpa using hd
    simp only [hd2, Bool.false_eq_true, if_false]
    constructor
    · by_cases huv : u = v
      · subst huv
        rw [lookupAdj_pushNeighbor_same]
        rfl
      · rw [lookupAdj_pushNeighbor_ne _ _ _ _ huv, lookupAdj_pushNeighbor_same]
        rfl
    · intro _
      rw [lookupAdj_pushNeighbor_same]
      rfl

/-- C2 counterexample: on a directed graph, `addEdge(0, 1)` does not create
vertex 1. -/
theorem c2_counterexample : ((Graph.mk [] true).addEdge 0 1).hasVertex 1 = false := by
  decide

/-- C2 witness: the amended statement instantiated on an undirected graph. -/
theorem c2_witness :
    (gPath.addEdge 2 3).hasVertex 2 = true ∧ gPath.isDirected = false ∧
      (gPath.addEdge 2 3).hasVertex 3 = true := by
  obtain ⟨h1, h2⟩ := c2_addEdge_creates gPath 2 3
  exact ⟨h1, by decide, h2 (by decide)⟩

end ClaimAddEdge

section VadLemmas

variable {α : Type} [DecidableEq α]
variable {nbr : α → List α}

theorem pairwise_front_le {s : α} {D restF V : List α} {c : α}
    (hdec : V = D ++ c :: restF) (hsrt : V.Pairwise (distLE nbr s)) :
    ∀ q ∈ restF, distLE nbr s c q := by
  have hpair := (List.pairwise_append.1 (hdec ▸ hsrt)).2.1
  exact (List.pairwise_cons.1 hpair).1

theorem pairwise_done_le {s : α} {D restF V : List α} {c : α}
    (hdec : V = D ++ c :: restF) (hsrt : V.Pairwise (distLE nbr s)) :
    ∀ v ∈ D, distLE nbr s v c := by
  intro v hv
  have hpair := (List.pairwise_append.1 (hdec ▸ hsrt)).2.2
  exact hpair v hv c (List.mem_cons_self _ _)

theorem expandD_eq (d : Int) (V : List α) (Q : List (α × Int)) (ns : List α) :
    expandD d V Q ns = (V ++ news V ns, Q ++ (news V ns).map (fun n => (n, d + 1))) := by
  induction ns generalizing V Q with
  | nil => simp [expandD, news]
  | cons n ns ih =>
    by_cases h : n ∈ V
    · simp [expandD, news, h, ih]
    · simp only [expandD, if_neg h, ih, news]
      simp [news, if_neg h, List.append_assoc]

theorem bounded_closure_mem {s : α} {V : List α} {dTN : Nat} (hsm : s ∈ V)
    (hcl : ∀ v ∈ V, ∀ dv, IsDist nbr s v dv → dv < dTN → ∀ n ∈ nbr v, n ∈ V) :
    ∀ du u, Reach nbr s u → IsDist nbr s u du → du ≤ dTN → u ∈ V := by
  intro du
  induction du using Nat.strong_induction_on with
  | _ du ih =>
    intro u hru hdu hle
    rcases Nat.eq_zero_or_pos du with h0 | hpos
    · subst h0
      rw [isDist_zero.1 hdu]
      exact hsm
    · obtain ⟨k, rfl⟩ : ∃ k, du = k + 1 := ⟨du - 1, by omega⟩
      obtain ⟨p, hp, hup⟩ := isDist_pred hdu
      have hpV : p ∈ V := ih k (by omega) p (isDist_reach hp) hp (by omega)
      exact hcl p hpV k hp (by omega) u hup

theorem vinv_cmem {s : α} {dTN : Nat} {U D V res : List α} {c : α} {dc : Int}
    {rest : List (α × Int)} (inv : VInv nbr s dTN U D ((c, dc) :: rest) V res) : c ∈ V := by
  rw [inv.decomp]
  exact List.mem_append_right _ (by simp)

theorem vinv_decomp2 {s : α} {dTN : Nat} {U D V res : List α} {c : α} {dc : Int}
    {rest : List (α × Int)} (inv : VInv nbr s dTN U D ((c, dc) :: rest) V res) :
    V = D ++ c :: rest.map Prod.fst := by
  have := inv.decomp
  simpa using this

theorem vinv_complete {s : α} {dTN : Nat} {U D V res : List α} {c : α} {dc : Int}
    {rest : List (α × Int)} (inv : VInv nbr s dTN U D ((c, dc) :: rest) V res)
    {dcn : Nat} (hdc : IsDist nbr s c dcn) (hdcle : dcn ≤ dTN) :
    ∀ du u, Reach nbr s u → IsDist nbr s u du → du ≤ dcn → u ∈ V := by
  intro du
  induction du using Nat.strong_induction_on with
  | _ du ih =>
    intro u hru hdu hle
    rcases Nat.eq_zero_or_pos du with h0 | hpos
    · subst h0
      rw [isDist_zero.1 hdu]
      exact inv.smem
    · obtain ⟨k, rfl⟩ : ∃ k, du = k + 1 := ⟨du - 1, by omega⟩
      obtain ⟨p, hp, hup⟩ := isDist_pred hdu
      have hpD : p ∈ D := by
        apply inv.lowV p k (isDist_reach hp) hp (by omega)
        intro q hq dq hdq
        rcases List.mem_cons.1 (by simpa using hq : q ∈ c :: rest.map Prod.fst) with rfl | hq2
        · have := isDist_unique hdq hdc
          omega
        · have := pairwise_front_le (vinv_decomp2 inv) inv.srt q hq2 dcn dq hdc hdq
          omega
      exact inv.closedV p hpD
        (fun dv hdv => by
          have := isDist_unique hdv hp
          omega) u hup

theorem vinv_fresh_dist {s : α} {dTN : Nat} {U D V res : List α} {c : α} {dc : Int}
    {rest : List (α × Int)} (inv : VInv nbr s dTN U D ((c, dc) :: rest) V res)
    {dcn : Nat} (hdc : IsDist nbr s c dcn) (hdcle : dcn ≤ dTN)
    {n : α} (hn : n ∈ nbr c) (hfresh : n ∉ V) : IsDist nbr s n (dcn + 1) := by
  have hrc : Reach nbr s c := inv.rch c (vinv_cmem inv)
  have hrn : Reach nbr s n := reach_step hrc hn
  obtain ⟨dn, hdn⟩ := exists_isDist hrn
  have hub : dn ≤ dcn + 1 := hdn.2 _ (walkLen_snoc hdc.1 hn)
  have hlb : ¬ dn ≤ dcn := fun hle =>
    hfresh (vinv_complete inv hdc hdcle dn n hrn hdn hle)
  have heq : dn = dcn + 1 := by omega
  exact heq ▸ hdn

theorem vinv_step_collect {s : α} {dTN : Nat} {U D V res : List α} {c : α} {dc : Int}
    {rest : List (α × Int)} (inv : VInv nbr s dTN U D ((c, dc) :: rest) V res)
    (hdc : IsDist nbr s c dTN) :
    VInv nbr s dTN U (D ++ [c]) rest V (res ++ [c]) := by
  have hdecomp2 := vinv_decomp2 inv
  have hcV : c ∈ V := vinv_cmem inv
  refine ⟨?_, inv.nd, inv.insub, inv.rch, inv.srt, ?_, ?_, ?_, ?_, ?_, inv.smem⟩
  · rw [hdecomp2]
    simp [List.append_assoc]
  · intro f hf q hq dq df hdq hdf
    have hfr : f ∈ rest.map Prod.fst := List.mem_of_mem_head? hf
    have h1 : dTN ≤ df := pairwise_front_le hdecomp2 inv.srt f hfr dTN df hdc hdf
    have h2 := inv.window c (by simp) q (by simpa using List.mem_cons_of_mem c hq) dq dTN hdq hdc
    omega
  · intro p hp
    exact inv.pay p (List.mem_cons_of_mem _ hp)
  · intro v hv hsmall n hn
    rcases List.mem_append.1 hv with hv | hv
    · exact inv.closedV v hv hsmall n hn
    · rw [List.mem_singleton.1 hv] at hsmall
      exact absurd (hsmall dTN hdc) (by omega)
  · intro u du hru hdu hle hprem
    have huV : u ∈ V := vinv_complete inv hdc (le_refl dTN) du u hru hdu (by omega)
    rw [hdecomp2] at huV
    rcases List.mem_append.1 huV with h | h
    · exact List.mem_append_left _ h
    · rcases List.mem_cons.1 h with rfl | h
      · exact List.mem_append_right _ (by simp)
      · exfalso
        have := hprem u h du hdu
        omega
  · intro x
    constructor
    · intro hx
      rcases List.mem_append.1 hx with hx | hx
      · obtain ⟨h1, h2, h3⟩ := (inv.resmem x).1 hx
        exact ⟨List.mem_append_left _ h1, h2, h3⟩
      · rw [List.mem_singleton.1 hx]
        exact ⟨List.mem_append_right _ (by simp), inv.rch c hcV, hdc⟩
    · rintro ⟨hxD, hrx, hdx⟩
      rcases List.mem_append.1 hxD with h | h
      · exact List.mem_append_left _ ((inv.resmem x).2 ⟨h, hrx, hdx⟩)
      · exact List.mem_append_right _ h

theorem vinv_step_expand {s : α} {dTN : Nat} {U D V res : List α} {c : α} {dc : Int}
    {rest : List (α × Int)} (Hnb : ∀ x n, n ∈ nbr x → n ∈ U)
    (inv : VInv nbr s dTN U D ((c, dc) :: rest) V res)
    {dcn : Nat} (hdc : IsDist nbr s c dcn) (hlt : dcn < dTN) :
    VInv nbr s dTN U (D ++ [c]) (rest ++ (news V (nbr c)).map (fun n => (n, dc + 1)))
      (V ++ news V (nbr c)) res := by
  have hdecomp2 := vinv_decomp2 inv
  have hcV : c ∈ V := vinv_cmem inv
  have hrc : Reach nbr s c := inv.rch c hcV
  have hNdist : ∀ n ∈ news V (nbr c), IsDist nbr s n (dcn + 1) := fun n hn =>
    vinv_fresh_dist inv hdc (by omega) (news_subset n hn) (news_fresh n hn)
  have hVd : ∀ v ∈ V, ∀ dv, IsDist nbr s v dv → dv ≤ dcn + 1 := by
    intro v hv dv hdv
    rw [hdecomp2] at hv
    rcases List.mem_append.1 hv with hvD | hvQ
    · have := pairwise_done_le hdecomp2 inv.srt v hvD dv dcn hdv hdc
      omega
    · rcases List.mem_cons.1 hvQ with rfl | hvr
      · have := isDist_unique hdv hdc
        omega
      · exact inv.window c (by simp) v (by simpa using List.mem_cons_of_mem c hvr) dv dcn hdv hdc
  refine ⟨?_, news_append_nodup inv.nd _, ?_, ?_, ?_, ?_, ?_, ?_, ?_, ?_,
    List.mem_append_left _ inv.smem⟩
  · rw [hdecomp2]
    simp [List.append_assoc, Function.comp_def]
  · intro v hv
    rcases List.mem_append.1 hv with hv | hv
    · exact inv.insub v hv
    · exact Hnb c v (news_subset v hv)
  · intro v hv
    rcases List.mem_append.1 hv with hv | hv
    · exact inv.rch v hv
    · exact reach_step hrc (news_subset v hv)
  · refine List.pairwise_append.2 ⟨inv.srt, ?_, ?_⟩
    · refine List.Pairwise.imp_of_mem ?_
        (List.pairwise_of_forall_mem_list fun a ha b hb => True.intro)
      intro a b ha hb _ da db hda hdb
      have h1 := isDist_unique hda (hNdist a ha)
      have h2 := isDist_unique hdb (hNdist b hb)
      omega
    · intro v hv n hn da db hda hdb
      have h1 := hVd v hv da hda
      have h2 := isDist_unique hdb (hNdist n hn)
      omega
  · intro f hf q hq dq df hdq hdf
    have hq2 : q ∈ rest.map Prod.fst ++ news V (nbr c) := by
      simpa [Function.comp_def] using hq
    have hf2 : f ∈ (rest.map Prod.fst ++ news V (nbr c)).head? := by
      simpa [Function.comp_def] using hf
    cases hrest : rest.map Prod.fst with
    | nil =>
      rw [hrest] at hq2 hf2
      simp only [List.nil_append] at hq2 hf2
      have h1 := isDist_unique hdq (hNdist q hq2)
      have h2 := isDist_unique hdf (hNdist f (List.mem_of_mem_head? hf2))
      omega
    | cons r0 rtail =>
      rw [hrest] at hq2 hf2
      have hfr : f = r0 := by
        simp only [List.cons_append, List.head?_cons, Option.mem_def, Option.some.injEq] at hf2
        exact hf2.symm
      have hr0mem : r0 ∈ rest.map Prod.fst := by
        rw [hrest]
        exact List.mem_cons_self _ _
      have hcr0 : distLE nbr s c r0 := pairwise_front_le hdecomp2 inv.srt r0 hr0mem
      obtain ⟨dr, hdr⟩ := exists_isDist (inv.rch r0 (by
        rw [hdecomp2]
        exact List.mem_append_right _ (List.mem_cons_of_mem _ hr0mem)))
      have hdf2 : df = dr := by
        rw [hfr] at hdf
        exact isDist_unique hdf hdr
      have hdclef : dcn ≤ dr := hcr0 dcn dr hdc hdr
      rcases List.mem_append.1 hq2 with hq3 | hq3
      · have hq4 : q ∈ rest.map Prod.fst := by
          rw [hrest]
          exact hq3
        have := inv.window c (by simp) q (by simpa using List.mem_cons_of_mem c hq4) dq dcn hdq hdc
        omega
      · have := isDist_unique hdq (hNdist q hq3)
        omega
  · intro p hp
    rcases List.mem_append.1 hp with hp | hp
    · exact inv.pay p (List.mem_cons_of_mem _ hp)
    · obtain ⟨n, hn, rfl⟩ := List.mem_map.1 hp
      obtain ⟨dcn2, hdc2, hdcd2⟩ := inv.pay (c, dc) (List.mem_cons_self _ _)
      have hdceq : dcn2 = dcn := isDist_unique hdcd2 hdc
      refine ⟨dcn + 1, ?_, hNdist n hn⟩
      show dc + 1 = ((dcn + 1 : Nat) : Int)
      have : dc = (dcn : Int) := by
        rw [hdceq] at hdc2
        exact hdc2
      rw [this]
      push_cast
      ring
  · intro v hv hsmall n hn
    rcases List.mem_append.1 hv with hv | hv
    · exact List.mem_append_left _ (inv.closedV v hv hsmall n hn)
    · rw [List.mem_singleton.1 hv] at hn
      rcases news_cover n hn with h | h
      · exact List.mem_append_left _ h
      · exact List.mem_append_right _ h
  · intro u du hru hdu hle hprem
    cases hQ : rest.map Prod.fst ++ news V (nbr c) with
    | nil =>
      rcases List.append_eq_nil.1 hQ with ⟨hr, hN⟩
      have hVeq : V = D ++ [c] := by
        rw [hdecomp2, hr]
      have hclV : ∀ v ∈ V, ∀ dv, IsDist nbr s v dv → dv < dTN → ∀ n ∈ nbr v, n ∈ V := by
        intro v hv dv hdv hdvlt n hn
        rw [hVeq] at hv
        rcases List.mem_append.1 hv with hv | hv
        · exact inv.closedV v hv (fun dv2 hdv2 => by
            have := isDist_unique hdv2 hdv
            omega) n hn
        · rw [List.mem_singleton.1 hv] at hn
          rcases news_cover n hn with h | h
          · exact h
          · rw [hN] at h
            exact absurd h (List.not_mem_nil n)
      have huV : u ∈ V := bounded_closure_mem inv.smem hclV du u hru hdu hle
      rw [hVeq] at huV
      exact huV
    | cons f ftail =>
      have hfQ : f ∈ rest.map Prod.fst ++ news V (nbr c) := by
        rw [hQ]
        exact List.mem_cons_self _ _
      have hrf : Reach nbr s f := by
        rcases List.mem_append.1 hfQ with h | h
        · exact inv.rch f (by
            rw [hdecomp2]
            exact List.mem_append_right _ (List.mem_cons_of_mem _ h))
        · exact reach_step hrc (news_subset f h)
      obtain ⟨df, hdf⟩ := exists_isDist hrf
      have hltf : du < df := by
        apply hprem f _ df hdf
        have : f ∈ ((rest ++ (news V (nbr c)).map fun n => (n, dc + 1)).map Prod.fst) := by
          simpa [Function.comp_def] using hfQ
        exact this
      have hdfle : df ≤ dcn + 1 := by
        rcases List.mem_append.1 hfQ with h | h
        · exact inv.window c (by simp) f (by simpa using List.mem_cons_of_mem c h) df dcn hdf hdc
        · have := isDist_unique hdf (hNdist f h)
          omega
      have hdule : du ≤ dcn := by omega
      have huV : u ∈ V := vinv_complete inv hdc (by omega) du u hru hdu hdule
      rw [hdecomp2] at huV
      rcases List.mem_append.1 huV with h | h
      · exact List.mem_append_left _ h
      · rcases List.mem_cons.1 h with rfl | h
        · exact List.mem_append_right _ (by simp)
        · exfalso
          have : u ∈ ((rest ++ (news V (nbr c)).map fun n => (n, dc + 1)).map Prod.fst) := by
            simp only [List.map_append, List.map_map]
            exact List.mem_append_left _ h
          have := hprem u this du hdu
          omega
  · intro x
    rw [inv.resmem x]
    constructor
    · rintro ⟨h1, h2, h3⟩
      exact ⟨List.mem_append_left _ h1, h2, h3⟩
    · rintro ⟨h1, h2, h3⟩
      rcases List.mem_append.1 h1 with h | h
      · exact ⟨h, h2, h3⟩
      · exfalso
        rw [List.mem_singleton.1 h] at h3
        have := isDist_unique h3 hdc
        omega

theorem vinv_step_skip {s : α} {dTN : Nat} {U D V res : List α} {c : α} {dc : Int}
    {rest : List (α × Int)} (inv : VInv nbr s dTN U D ((c, dc) :: rest) V res)
    {dcn : Nat} (hdc : IsDist nbr s c dcn) (hgt : dTN < dcn) :
    VInv nbr s dTN U (D ++ [c]) rest V res := by
  have hdecomp2 := vinv_decomp2 inv
  refine ⟨?_, inv.nd, inv.insub, inv.rch, inv.srt, ?_, ?_, ?_, ?_, ?_, inv.smem⟩
  · rw [hdecomp2]
    simp [List.append_assoc]
  · intro f hf q hq dq df hdq hdf
    have hfr : f ∈ rest.map Prod.fst := List.mem_of_mem_head? hf
    have h1 : dcn ≤ df := pairwise_front_le hdecomp2 inv.srt f hfr dcn df hdc hdf
    have h2 := inv.window c (by simp) q (by simpa using List.mem_cons_of_mem c hq) dq dcn hdq hdc
    omega
  · intro p hp
    exact inv.pay p (List.mem_cons_of_mem _ hp)
  · intro v hv hsmall n hn
    rcases List.mem_append.1 hv with hv | hv
    · exact inv.closedV v hv hsmall n hn
    · rw [List.mem_singleton.1 hv] at hsmall
      exact absurd (hsmall dcn hdc) (by omega)
  · intro u du hru hdu hle hprem
    have huD : u ∈ D := by
      apply inv.lowV u du hru hdu hle
      intro q hq dq hdq
      rcases List.mem_cons.1 (by simpa using hq : q ∈ c :: rest.map Prod.fst) with rfl | hq2
      · have := isDist_unique hdq hdc
        omega
      · exact hprem q hq2 dq hdq
    exact List.mem_append_left _ huD
  · intro x
    rw [inv.resmem x]
    constructor
    · rintro ⟨h1, h2, h3⟩
      exact ⟨List.mem_append_left _ h1, h2, h3⟩
    · rintro ⟨h1, h2, h3⟩
      rcases List.mem_append.1 h1 with h | h
      · exact ⟨h, h2, h3⟩
      · exfalso
        rw [List.mem_singleton.1 h] at h3
        have := isDist_unique h3 hdc
        omega

theorem vinv_card {s : α} {dTN : Nat} {U D V res : List α} {Q : List (α × Int)}
    (inv : VInv nbr s dTN U D Q V res) : V.length ≤ U.length :=
  nodup_length_le inv.nd inv.insub

theorem vadAux_master {s : α} {dT : Int} {dTN : Nat} {U : List α}
    (Hnb : ∀ x n, n ∈ nbr x → n ∈ U) (hdT : dT = (dTN : Int)) :
    ∀ (fuel : Nat) (Q : List (α × Int)) (D V res : List α), VInv nbr s dTN U D Q V res →
      Q.length + (U.length - V.length) ≤ fuel →
      ∀ x, x ∈ vadAux nbr dT fuel Q V res ↔
        x ∈ res ∨ (Reach nbr s x ∧ IsDist nbr s x dTN) := by
  intro fuel
  induction fuel with
  | zero =>
    intro Q D V res inv hfuel x
    cases Q with
    | nil =>
      simp only [vadAux]
      constructor
      · exact Or.inl
      · rintro (h | ⟨hr, hd⟩)
        · exact h
        · refine (inv.resmem x).2 ⟨?_, hr, hd⟩
          exact inv.lowV x dTN hr hd (le_refl _) fun q hq => absurd hq (List.not_mem_nil q)
    | cons p rest => simp at hfuel
  | succ fuel ih =>
    intro Q D V res inv hfuel x
    cases Q with
    | nil =>
      simp only [vadAux]
      constructor
      · exact Or.inl
      · rintro (h | ⟨hr, hd⟩)
        · exact h
        · refine (inv.resmem x).2 ⟨?_, hr, hd⟩
          exact inv.lowV x dTN hr hd (le_refl _) fun q hq => absurd hq (List.not_mem_nil q)
    | cons p rest =>
      obtain ⟨c, dc⟩ := p
      obtain ⟨dcn, hdc, hdcd⟩ := inv.pay (c, dc) (List.mem_cons_self _ _)
      have hdc2 : dc = (dcn : Int) := hdc
      have hdcd2 : IsDist nbr s c dcn := hdcd
      rcases lt_trichotomy dcn dTN with hcmp | hcmp | hcmp
      · have hne : ¬ dc = dT := by
          rw [hdc2, hdT]
          intro h
          have : dcn = dTN := by exact_mod_cast h
          omega
        have hltI : dc < dT := by
          rw [hdc2, hdT]
          exact_mod_cast hcmp
        have hrun : vadAux nbr dT (fuel + 1) ((c, dc) :: rest) V res =
            vadAux nbr dT fuel (rest ++ (news V (nbr c)).map (fun n => (n, dc + 1)))
              (V ++ news V (nbr c)) res := by
          simp [vadAux, if_neg hne, if_pos hltI, expandD_eq]
        rw [hrun]
        have inv2 := vinv_step_expand Hnb inv hdcd2 hcmp
        have hlen : (V ++ news V (nbr c)).length ≤ U.length := vinv_card inv2
        apply ih _ _ _ _ inv2
        simp only [List.length_append, List.length_cons, List.length_map] at hfuel hlen ⊢
        omega
      · have heq : dc = dT := by
          rw [hdc2, hdT, hcmp]
        have hrun : vadAux nbr dT (fuel + 1) ((c, dc) :: rest) V res =
            vadAux nbr dT fuel rest V (res ++ [c]) := by
          simp [vadAux, if_pos heq]
        rw [hrun]
        have inv2 := vinv_step_collect inv (hcmp ▸ hdcd2)
        have hmem := ih _ _ _ _ inv2 (by
          simp only [List.length_append, List.length_cons] at hfuel ⊢
          omega) x
        rw [hmem]
        constructor
        · rintro (h | h)
          · rcases List.mem_append.1 h with h2 | h2
            · exact Or.inl h2
            · rw [List.mem_singleton.1 h2]
              exact Or.inr ⟨inv.rch c (vinv_cmem inv), hcmp ▸ hdcd2⟩
          · exact Or.inr h
        · rintro (h | h)
          · exact Or.inl (List.mem_append_left _ h)
          · exact Or.inr h
      · have hne : ¬ dc = dT := by
          rw [hdc2, hdT]
          intro h
          have : dcn = dTN := by exact_mod_cast h
          omega
        have hnlt : ¬ dc < dT := by
          rw [hdc2, hdT]
          push_neg
          exact_mod_cast le_of_lt hcmp
        have hrun : vadAux nbr dT (fuel + 1) ((c, dc) :: rest) V res =
            vadAux nbr dT fuel rest V res := by
          simp [vadAux, if_neg hne, if_neg hnlt]
        rw [hrun]
        have inv2 := vinv_step_skip inv hdcd2 hcmp
        apply ih _ _ _ _ inv2
        simp only [List.length_cons] at hfuel ⊢
        omega

theorem vinv_init (g : Graph) (s : Int) (dTN : Nat) :
    VInv g.getNeighbors s dTN (uniOf g s) [] [(s, 0)] [s] [] := by
  refine ⟨by simp, by simp, ?_, ?_, by simp, ?_, ?_, ?_, ?_, by simp, by simp⟩
  · intro v hv
    rw [List.mem_singleton.1 hv]
    exact List.mem_cons_self _ _
  · intro v hv
    rw [List.mem_singleton.1 hv]
    exact reach_self s
  · intro f hf q hq dq df hdq hdf
    simp only [List.map_cons, List.map_nil, List.head?_cons, Option.mem_def,
      Option.some.injEq] at hf hq
    rw [List.mem_singleton.1 hq] at hdq
    rw [← hf] at hdf
    have := isDist_unique hdq hdf
    omega
  · intro p hp
    rw [List.mem_singleton.1 hp]
    exact ⟨0, by simp, isDist_self s⟩
  · intro v hv
    simp at hv
  · intro u du _ _ _ hprem
    have := hprem s (by simp) 0 (isDist_self s)
    omega

theorem mem_verticesAtDistance {g : Graph} {s : Int} (hs : g.hasVertex s = true)
    {d : Int} (hd : 0 ≤ d) (x : Int) :
    x ∈ verticesAtDistance g s d ↔
      Reach g.getNeighbors s x ∧ IsDist g.getNeighbors s x d.toNat := by
  have hcond : ¬ (g.hasVertex s = false ∨ d < 0) := by
    simp [hs]
    omega
  by_cases h0 : d = 0
  · subst h0
    simp only [verticesAtDistance, if_neg hcond, if_pos rfl]
    constructor
    · intro hx
      rw [List.mem_singleton.1 hx]
      exact ⟨reach_self s, isDist_self s⟩
    · rintro ⟨hr, hdx⟩
      have : x = s := isDist_zero.1 (by simpa using hdx)
      simp [this]
  · simp only [verticesAtDistance, if_neg hcond, if_neg h0]
    have hdT : d = ((d.toNat : Nat) : Int) := (Int.toNat_of_nonneg hd).symm
    have := vadAux_master (getNeighbors_sub_uni g s) hdT (gBound g) [(s, 0)] [] [s] []
      (vinv_init g s d.toNat) (by
        rw [uniOf_length]
        have := gBound_pos g
        simp only [List.length_cons, List.length_nil, List.length_singleton]
        omega) x
    rw [this]
    simp

end VadLemmas

section ClaimLevels

theorem traverse_nodup (g : Graph) (s : Int) : (traverse g s).Nodup := by
  by_cases h : g.hasVertex s = true
  · rw [traverse_eq_comp h]
    exact comp_nodup g s
  · rw [traverse_nil (by simpa using h)]
    exact List.nodup_nil

/-- C6: for every graph and start vertex present in it, `traverse` lists each
reachable vertex exactly once, and its member set is the union over all
distances `d` up to the eccentricity of the start of
`verticesAtDistance g s d`. -/
theorem c6_traverse_levels (g : Graph) (s : Int) (hs : g.hasVertex s = true) :
    (traverse g s).Nodup ∧ (∀ v, v ∈ traverse g s ↔ Reach g.getNeighbors s v) ∧
      ∀ e, IsEcc g s e →
        ∀ v, v ∈ traverse g s ↔ ∃ d : Nat, d ≤ e ∧ v ∈ verticesAtDistance g s (d : Int) := by
  refine ⟨traverse_nodup g s, mem_traverse hs, ?_⟩
  intro e he v
  rw [mem_traverse hs v]
  constructor
  · intro hr
    obtain ⟨dv, hdv⟩ := exists_isDist hr
    refine ⟨dv, he.1 v dv hr hdv, ?_⟩
    rw [mem_verticesAtDistance hs (Int.natCast_nonneg dv) v]
    refine ⟨hr, ?_⟩
    simpa using hdv
  · rintro ⟨d, _, hmem⟩
    exact ((mem_verticesAtDistance hs (Int.natCast_nonneg d) v).1 hmem).1

/-- C6 witness: the statement instantiated on the undirected path 0 — 1 with
start 0. -/
theorem c6_witness :
    gPath.hasVertex 0 = true ∧
      ((traverse gPath 0).Nodup ∧
        (∀ v, v ∈ traverse gPath 0 ↔ Reach gPath.getNeighbors 0 v) ∧
        ∀ e, IsEcc gPath 0 e →
          ∀ v, v ∈ traverse gPath 0 ↔
            ∃ d : Nat, d ≤ e ∧ v ∈ verticesAtDistance gPath 0 (d : Int)) :=
  ⟨by decide, c6_traverse_levels gPath 0 (by decide)⟩

end ClaimLevels

section PLemmas

variable {α : Type} [DecidableEq α]
variable {nbr : α → List α}

theorem expandP_eq (cur : α) (V Q : List α) (P : List (α × α)) (ns : List α) :
    expandP cur V Q P ns =
      (V ++ news V ns, Q ++ news V ns, P ++ (news V ns).map (fun n => (n, cur))) := by
  induction ns generalizing V Q P with
  | nil => simp [expandP, news]
  | cons n ns ih =>
    by_cases h : n ∈ V
    · simp [expandP, news, h, ih]
    · simp only [expandP, if_neg h, ih, news]
      simp [news, if_neg h, List.append_assoc]

theorem plook_append_left {P P2 : List (α × α)} {x d0 : α} (h : x ∈ P.map Prod.fst) :
    plook d0 (P ++ P2) x = plook d0 P x := by
  induction P with
  | nil => simp at h
  | cons p r ih =>
    obtain ⟨k, pv⟩ := p
    by_cases hk : k = x
    · simp [plook, hk]
    · simp only [List.map_cons, List.mem_cons] at h
      rcases h with h | h
      · exact absurd h.symm hk
      · simp [plook, hk, ih h]

theorem plook_append_right {P P2 : List (α × α)} {x d0 : α} (h : x ∉ P.map Prod.fst) :
    plook d0 (P ++ P2) x = plook d0 P2 x := by
  induction P with
  | nil => simp [plook]
  | cons p r ih =>
    obtain ⟨k, pv⟩ := p
    have hk : ¬ k = x := fun h2 => h (by simp [h2])
    have h2 : x ∉ r.map Prod.fst := fun h3 => h (by simp [h3])
    simp [plook, hk, ih h2]

theorem plook_not_key {P : List (α × α)} {x d0 : α} (h : x ∉ P.map Prod.fst) :
    plook d0 P x = d0 := by
  induction P with
  | nil => rfl
  | cons p r ih =>
    obtain ⟨k, pv⟩ := p
    have hk : ¬ k = x := fun h2 => h (by simp [h2])
    have h2 : x ∉ r.map Prod.fst := fun h3 => h (by simp [h3])
    simp [plook, hk, ih h2]

theorem plook_map_const {l : List α} {cur d0 x : α} (h : x ∈ l) :
    plook d0 (l.map (fun n => (n, cur))) x = cur := by
  induction l with
  | nil => simp at h
  | cons k r ih =>
    by_cases hk : k = x
    · simp [plook, hk]
    · rcases List.mem_cons.1 h with h2 | h2
      · exact absurd h2.symm hk
      · simp [plook, hk, ih h2]

theorem pinv_step {s tgt stop d0 : α} {U D rest V : List α} {c : α} {P : List (α × α)}
    (Hnb : ∀ x n, n ∈ nbr x → n ∈ U)
    (inv : PInv nbr s tgt stop d0 U D (c :: rest) V P) (hct : c ≠ tgt) :
    PInv nbr s tgt stop d0 U (D ++ [c]) (rest ++ news V (nbr c)) (V ++ news V (nbr c))
      (P ++ (news V (nbr c)).map (fun n => (n, c))) := by
  have hbase := inv.base
  have hcV : c ∈ V := tinv_cmem hbase
  obtain ⟨dc, hdc⟩ := exists_isDist (hbase.rch c hcV)
  have hNdist : ∀ n ∈ news V (nbr c), IsDist nbr s n (dc + 1) := fun n hn =>
    tinv_fresh_dist hbase hdc (news_subset n hn) (news_fresh n hn)
  have hkeys : (P ++ (news V (nbr c)).map (fun n => (n, c))).map Prod.fst =
      P.map Prod.fst ++ news V (nbr c) := by
    simp [Function.comp_def]
  refine ⟨tinv_step Hnb hbase, ?_, ?_, ?_, ?_, ?_, ?_⟩
  · rw [hkeys]
    exact List.nodup_append.2 ⟨inv.pkeysnd, news_nodup _ _,
      fun x hx hx2 => news_fresh x hx2 (inv.pkeyssub x hx)⟩
  · rw [hkeys]
    intro x hx
    rcases List.mem_append.1 hx with hx | hx
    · exact List.mem_append_left _ (inv.pkeyssub x hx)
    · exact List.mem_append_right _ hx
  · intro v hv
    rw [hkeys]
    rcases List.mem_append.1 hv with hv | hv
    · rcases inv.vsub v hv with h | h
      · exact Or.inl h
      · exact Or.inr (List.mem_append_left _ h)
    · exact Or.inr (List.mem_append_right _ hv)
  · by_cases hsP : s ∈ P.map Prod.fst
    · rw [plook_append_left hsP]
      exact inv.pstart
    · rw [plook_append_right hsP]
      have hd0 : d0 = stop := by
        have h2 := inv.pstart
        rw [plook_not_key hsP] at h2
        exact h2
      have hsN : s ∉ ((news V (nbr c)).map (fun n => (n, c))).map Prod.fst := by
        simp only [List.map_map]
        intro h
        obtain ⟨n, hn, he⟩ := List.mem_map.1 h
        have : n = s := he
        rw [this] at hn
        exact news_fresh s hn hbase.smem
      rw [plook_not_key hsN]
      exact hd0
  · intro v hv hvs
    rcases List.mem_append.1 hv with hvV | hvN
    · obtain ⟨p, dp, hpl, hpV, hvnb, hdp, hdv⟩ := inv.pcorrect v hvV hvs
      have hvkeys : v ∈ P.map Prod.fst := by
        rcases inv.vsub v hvV with h | h
        · exact absurd h hvs
        · exact h
      exact ⟨p, dp, by rw [plook_append_left hvkeys]; exact hpl,
        List.mem_append_left _ hpV, hvnb, hdp, hdv⟩
    · have hvP : v ∉ P.map Prod.fst := fun h => news_fresh v hvN (inv.pkeyssub v h)
      refine ⟨c, dc, ?_, List.mem_append_left _ hcV, news_subset v hvN, hdc, hNdist v hvN⟩
      rw [plook_append_right hvP]
      exact plook_map_const hvN
  · intro h
    rcases List.mem_append.1 h with h | h
    · exact inv.tmiss h
    · exact hct (List.mem_singleton.1 h).symm

theorem pinv_dist_bound {s tgt stop d0 : α} {U D Q V : List α} {P : List (α × α)}
    (inv : PInv nbr s tgt stop d0 U D Q V P) :
    ∀ dt t, t ∈ V → IsDist nbr s t dt → ∃ l : List α, l.Nodup ∧ l.length = dt + 1 ∧
      (∀ x ∈ l, x ∈ V) ∧ ∀ x ∈ l, ∃ dx, IsDist nbr s x dx ∧ dx ≤ dt := by
  intro dt
  induction dt using Nat.strong_induction_on with
  | _ dt ih =>
    intro t htV hdt
    rcases Nat.eq_zero_or_pos dt with h0 | hpos
    · subst h0
      refine ⟨[t], by simp, by simp, by simp [htV], ?_⟩
      intro x hx
      rw [List.mem_singleton.1 hx]
      exact ⟨0, hdt, le_refl 0⟩
    · obtain ⟨k, rfl⟩ : ∃ k, dt = k + 1 := ⟨dt - 1, by omega⟩
      have hts : t ≠ s := by
        intro h
        subst h
        have := isDist_unique hdt (isDist_self _)
        omega
      obtain ⟨p, dp, _, hpV, _, hdp, hdt2⟩ := inv.pcorrect t htV hts
      have hdpk : dp = k := by
        have := isDist_unique hdt hdt2
        omega
      subst hdpk
      obtain ⟨l2, hnd, hlen, hmem, hdists⟩ := ih dp (by omega) p hpV hdp
      refine ⟨t :: l2, ?_, by simp [hlen], ?_, ?_⟩
      · refine List.nodup_cons.2 ⟨?_, hnd⟩
        intro htl
        obtain ⟨dx, hdx, hdxle⟩ := hdists t htl
        have := isDist_unique hdx hdt
        omega
      · intro x hx
        rcases List.mem_cons.1 hx with rfl | hx
        · exact htV
        · exact hmem x hx
      · intro x hx
        rcases List.mem_cons.1 hx with rfl | hx
        · exact ⟨dp + 1, hdt, le_refl _⟩
        · obtain ⟨dx, hdx, hdxle⟩ := hdists x hx
          exact ⟨dx, hdx, by omega⟩

theorem pinv_vlen {s tgt stop d0 : α} {U D Q V : List α} {P : List (α × α)}
    (inv : PInv nbr s tgt stop d0 U D Q V P) : V.length ≤ P.length + 1 := by
  have hsub : ∀ v ∈ V, v ∈ s :: P.map Prod.fst := by
    intro v hv
    rcases inv.vsub v hv with h | h
    · rw [h]
      exact List.mem_cons_self _ _
    · exact List.mem_cons_of_mem _ h
  have h := nodup_length_le inv.base.nd hsub
  simpa using h

theorem recons_spec {s tgt stop d0 : α} {U D Q V : List α} {P : List (α × α)}
    (inv : PInv nbr s tgt stop d0 U D Q V P) (Hstop : stop ∉ V) :
    ∀ dt t, t ∈ V → IsDist nbr s t dt → ∀ fuel, dt + 1 ≤ fuel →
      ∃ l, reconsAux P stop d0 fuel t = t :: l ∧ (t :: l).length = dt + 1 ∧
        (t :: l).getLast? = some s ∧ List.Chain' (fun a b => a ∈ nbr b) (t :: l) ∧
        ∀ x ∈ t :: l, x ∈ V := by
  intro dt
  induction dt using Nat.strong_induction_on with
  | _ dt ih =>
    intro t htV hdt fuel hfuel
    obtain ⟨fuel2, rfl⟩ : ∃ f2, fuel = f2 + 1 := ⟨fuel - 1, by omega⟩
    have htstop : ¬ t = stop := fun h => Hstop (h ▸ htV)
    rcases Nat.eq_zero_or_pos dt with h0 | hpos
    · subst h0
      have hts : t = s := isDist_zero.1 hdt
      subst hts
      refine ⟨[], ?_, by simp, by simp, by simp, by simpa using htV⟩
      simp only [reconsAux, if_neg htstop, inv.pstart]
      cases fuel2 with
      | zero => rfl
      | succ f3 => simp [reconsAux]
    · obtain ⟨k, rfl⟩ : ∃ k, dt = k + 1 := ⟨dt - 1, by omega⟩
      have hts : t ≠ s := by
        intro h
        subst h
        have := isDist_unique hdt (isDist_self _)
        omega
      obtain ⟨p, dp, hpl, hpV, htnb, hdp, hdt2⟩ := inv.pcorrect t htV hts
      have hdpk : dp = k := by
        have := isDist_unique hdt hdt2
        omega
      subst hdpk
      obtain ⟨l2, hl2, hlen, hlast, hchain, hmem⟩ := ih dp (by omega) p hpV hdp fuel2 (by omega)
      refine ⟨p :: l2, ?_, ?_, ?_, ?_, ?_⟩
      · simp only [reconsAux, if_neg htstop, hpl, hl2]
      · simp only [List.length_cons] at hlen ⊢
        omega
      · simpa using hlast
      · exact List.chain'_cons.2 ⟨htnb, hchain⟩
      · intro x hx
        rcases List.mem_cons.1 hx with rfl | hx
        · exact htV
        · exact hmem x hx

theorem pbfsAux_master {s tgt stop d0 : α} {U : List α}
    (Hnb : ∀ x n, n ∈ nbr x → n ∈ U) (Hstop : stop ∉ U) :
    ∀ (fuel : Nat) (Q D V : List α) (P : List (α × α)), PInv nbr s tgt stop d0 U D Q V P →
      Q.length + (U.length - V.length) ≤ fuel →
      (Reach nbr s tgt →
        ∃ l, pbfsAux nbr tgt stop d0 fuel Q V P = l ∧
          (∀ dt, IsDist nbr s tgt dt → l.length = dt + 1) ∧
          l.head? = some s ∧ l.getLast? = some tgt ∧
          List.Chain' (fun a b => b ∈ nbr a) l ∧ (∀ x ∈ l, x ∈ U) ∧ l ≠ []) ∧
        (¬ Reach nbr s tgt → pbfsAux nbr tgt stop d0 fuel Q V P = []) := by
  intro fuel
  induction fuel with
  | zero =>
    intro Q D V P inv hfuel
    cases Q with
    | nil =>
      constructor
      · intro hr
        exfalso
        obtain ⟨dt, hdt⟩ := exists_isDist hr
        exact inv.tmiss (inv.base.low tgt dt hr hdt
          fun q hq => absurd hq (List.not_mem_nil q))
      · intro _
        rfl
    | cons c rest => simp at hfuel
  | succ fuel ih =>
    intro Q D V P inv hfuel
    cases Q with
    | nil =>
      constructor
      · intro hr
        exfalso
        obtain ⟨dt, hdt⟩ := exists_isDist hr
        exact inv.tmiss (inv.base.low tgt dt hr hdt
          fun q hq => absurd hq (List.not_mem_nil q))
      · intro _
        rfl
    | cons c rest =>
      by_cases hct : c = tgt
      · subst hct
        have hcV : c ∈ V := tinv_cmem inv.base
        have hrt : Reach nbr s c := inv.base.rch c hcV
        have hVstop : stop ∉ V := fun h => Hstop (inv.base.insub stop h)
        obtain ⟨dt, hdt⟩ := exists_isDist hrt
        have hdtb : dt + 1 ≤ P.length + 1 := by
          obtain ⟨lb, hbnd, hblen, hbmem, _⟩ := pinv_dist_bound inv dt c hcV hdt
          have h1 : lb.length ≤ V.length := nodup_length_le hbnd hbmem
          have h2 := pinv_vlen inv
          omega
        obtain ⟨l2, hl2, hlen, hlast, hchain, hmem⟩ :=
          recons_spec inv hVstop dt c hcV hdt (P.length + 1) hdtb
        have hrun : pbfsAux nbr c stop d0 (fuel + 1) (c :: rest) V P =
            (reconsAux P stop d0 (P.length + 1) c).reverse := by
          simp [pbfsAux]
        constructor
        · intro _
          refine ⟨(c :: l2).reverse, by rw [hrun, hl2], ?_, ?_, ?_, ?_, ?_, by simp⟩
          · intro dt2 hdt2
            rw [isDist_unique hdt2 hdt]
            simpa using hlen
          · rw [List.head?_reverse]
            exact hlast
          · rw [List.getLast?_reverse]
            rfl
          · rw [List.chain'_reverse]
            exact hchain
          · intro x hx
            rw [List.mem_reverse] at hx
            exact inv.base.insub x (hmem x hx)
        · intro h
          exact absurd hrt h
      · have hrun : pbfsAux nbr tgt stop d0 (fuel + 1) (c :: rest) V P =
            pbfsAux nbr tgt stop d0 fuel (rest ++ news V (nbr c)) (V ++ news V (nbr c))
              (P ++ (news V (nbr c)).map (fun n => (n, c))) := by
          simp [pbfsAux, if_neg hct, expandP_eq]
        have inv2 := pinv_step Hnb inv hct
        have hlen2 : (V ++ news V (nbr c)).length ≤ U.length := tinv_card inv2.base
        have hfuel2 : (rest ++ news V (nbr c)).length +
            (U.length - (V ++ news V (nbr c)).length) ≤ fuel := by
          simp only [List.length_append, List.length_cons] at hfuel hlen2 ⊢
          omega
        rw [hrun]
        exact ih _ _ _ _ inv2 hfuel2

theorem pbfs_unreach {s tgt stop d0 : α} {U : List α}
    (Hnb : ∀ x n, n ∈ nbr x → n ∈ U) (hnr : ¬ Reach nbr s tgt) :
    ∀ (fuel : Nat) (Q D V : List α) (P : List (α × α)), TInv nbr s U D Q V →
      Q.length + (U.length - V.length) ≤ fuel →
      pbfsAux nbr tgt stop d0 fuel Q V P = [] := by
  intro fuel
  induction fuel with
  | zero =>
    intro Q D V P inv hfuel
    cases Q with
    | nil => rfl
    | cons c rest => simp at hfuel
  | succ fuel ih =>
    intro Q D V P inv hfuel
    cases Q with
    | nil => rfl
    | cons c rest =>
      have hct : ¬ c = tgt := fun h => hnr (h ▸ inv.rch c (tinv_cmem inv))
      have hrun : pbfsAux nbr tgt stop d0 (fuel + 1) (c :: rest) V P =
          pbfsAux nbr tgt stop d0 fuel (rest ++ news V (nbr c)) (V ++ news V (nbr c))
            (P ++ (news V (nbr c)).map (fun n => (n, c))) := by
        simp [pbfsAux, if_neg hct, expandP_eq]
      have inv2 := tinv_step Hnb inv
      have hlen2 : (V ++ news V (nbr c)).length ≤ U.length := tinv_card inv2
      have hfuel2 : (rest ++ news V (nbr c)).length +
          (U.length - (V ++ news V (nbr c)).length) ≤ fuel := by
        simp only [List.length_append, List.length_cons] at hfuel hlen2 ⊢
        omega
      rw [hrun]
      exact ih _ _ _ _ inv2 hfuel2

end PLemmas

section SPLemmas

theorem pinv_init_graph (g : Graph) (s t : Int) :
    PInv g.getNeighbors s t (-1) 0 (uniOf g s) [] [s] [s] [(s, -1)] := by
  refine ⟨tinv_init g s, by simp, ?_, ?_, by simp [plook], ?_, by simp⟩
  · intro x hx
    simpa using hx
  · intro v hv
    exact Or.inl (List.mem_singleton.1 hv)
  · intro v hv hvs
    exact absurd (List.mem_singleton.1 hv) hvs

theorem shortestPath_absent {g : Graph} {s t : Int}
    (h : g.hasVertex s = false ∨ g.hasVertex t = false) : shortestPath g s t = [] := by
  simp only [shortestPath, if_pos h]

theorem shortestPath_self {g : Graph} {s : Int} (h : g.hasVertex s = true) :
    shortestPath g s s = [s] := by
  have hcond : ¬ (g.hasVertex s = false ∨ g.hasVertex s = false) := by
    simp [h]
  simp [shortestPath, if_neg hcond, h]

theorem shortestPath_run {g : Graph} {s t : Int} (hs : g.hasVertex s = true)
    (ht : g.hasVertex t = true) (hst : s ≠ t) :
    shortestPath g s t = pbfsAux g.getNeighbors t (-1) 0 (gBound g) [s] [s] [(s, -1)] := by
  have hcond : ¬ (g.hasVertex s = false ∨ g.hasVertex t = false) := by
    simp [hs, ht]
  simp [shortestPath, if_neg hcond, if_neg hst]

theorem shortestPath_spec {g : Graph} {s t : Int} (hs : g.hasVertex s = true)
    (ht : g.hasVertex t = true) (hst : s ≠ t) (hneg : (-1 : Int) ∉ uniOf g s)
    (hr : Reach g.getNeighbors s t) :
    ∃ l, shortestPath g s t = l ∧
      (∀ dt, IsDist g.getNeighbors s t dt → l.length = dt + 1) ∧
      l.head? = some s ∧ l.getLast? = some t ∧ l ≠ [] := by
  obtain ⟨hmain, _⟩ := pbfsAux_master (getNeighbors_sub_uni g s) hneg (gBound g)
    [s] [] [s] [(s, -1)] (pinv_init_graph g s t)
    (by
      rw [uniOf_length]
      have := gBound_pos g
      simp only [List.length_singleton]
      omega)
  obtain ⟨l, hl, hlen, hhead, hlast, _, _, hne⟩ := hmain hr
  rw [shortestPath_run hs ht hst]
  exact ⟨l, hl, hlen, hhead, hlast, hne⟩

theorem shortestPath_of_unreach {g : Graph} {s t : Int}
    (h : ¬ Reach g.getNeighbors s t) : shortestPath g s t = [] := by
  by_cases hs : g.hasVertex s = true
  · by_cases ht : g.hasVertex t = true
    · by_cases hst : s = t
      · exact absurd (hst ▸ reach_self s) h
      · rw [shortestPath_run hs ht hst]
        apply pbfs_unreach (getNeighbors_sub_uni g s) h (gBound g) [s] [] [s] [(s, -1)]
          (tinv_init g s)
        rw [uniOf_length]
        have := gBound_pos g
        simp only [List.length_singleton]
        omega
    · exact shortestPath_absent (Or.inr (by simpa using ht))
  · exact shortestPath_absent (Or.inl (by simpa using hs))

/-- C4 (amended): provided the sentinel value `-1` does not occur in the search
universe of `u` (as `u` itself, a vertex, or an adjacency entry), for every
reachable `v` the value of `shortestDistance` equals the length of the
`shortestPath` result minus one (this also covers the degenerate sentinel
cases, where both sides are `-1` or `0`). -/
theorem c4_distance_eq_path_length (g : Graph) (u v : Int)
    (hr : Reach g.getNeighbors u v) (hneg : (-1 : Int) ∉ uniOf g u) :
    shortestDistance g u v = ((shortestPath g u v).length : Int) - 1 := by
  by_cases hu : g.hasVertex u = true
  · by_cases hv : g.hasVertex v = true
    · by_cases huv : u = v
      · subst huv
        rw [shortestDistance_self hu, shortestPath_self hu]
        simp
      · obtain ⟨dt, hdt⟩ := exists_isDist hr
        obtain ⟨l, hl, hlen, _, _, _⟩ := shortestPath_spec hu hv huv hneg hr
        rw [shortestDistance_eq_dist hu hv huv hdt, hl, hlen dt hdt]
        push_cast
        ring
    · rw [shortestDistance_absent (Or.inr (by simpa using hv)),
        shortestPath_absent (Or.inr (by simpa using hv))]
      simp
  · rw [shortestDistance_absent (Or.inl (by simpa using hu)),
      shortestPath_absent (Or.inl (by simpa using hu))]
    simp

/-- C4 counterexample: when the start vertex is the parent sentinel `-1`, the
reconstruction loop stops before emitting the start, so on the undirected edge
(-1) — 0 `shortestPath` returns the one-vertex path `[0]` while
`shortestDistance` returns 1, and the claimed identity fails. -/
theorem c4_counterexample :
    Reach gNeg.getNeighbors (-1) 0 ∧
      shortestDistance gNeg (-1) 0 ≠ ((shortestPath gNeg (-1) 0).length : Int) - 1 := by
  constructor
  · exact ⟨1, WalkLen.cons (by decide) (WalkLen.refl 0)⟩
  · decide

/-- C4 witness: the amended identity instantiated on the undirected edge 0 — 1
with reachable target 1. -/
theorem c4_witness :
    Reach gPath.getNeighbors 0 1 ∧ (-1 : Int) ∉ uniOf gPath 0 ∧
      shortestDistance gPath 0 1 = ((shortestPath gPath 0 1).length : Int) - 1 := by
  have hr : Reach gPath.getNeighbors 0 1 := ⟨1, WalkLen.cons (by decide) (WalkLen.refl 1)⟩
  exact ⟨hr, by decide, c4_distance_eq_path_length gPath 0 1 hr (by decide)⟩

end SPLemmas

section GridLemmas

theorem tinv_init_gen {α : Type} [DecidableEq α] {nbr : α → List α} (s : α) (U : List α)
    (hsU : s ∈ U) : TInv nbr s U [] [s] [s] := by
  refine ⟨by simp, by simp, ?_, ?_, by simp, ?_, ?_, ?_, List.mem_singleton.2 rfl⟩
  · intro v hv
    rw [List.mem_singleton.1 hv]
    exact hsU
  · intro v hv
    rw [List.mem_singleton.1 hv]
    exact reach_self s
  · intro f hf q hq dq df hdq hdf
    simp only [List.head?_cons, Option.mem_def, Option.some.injEq] at hf
    rw [List.mem_singleton.1 hq] at hdq
    rw [← hf] at hdf
    have := isDist_unique hdq hdf
    omega
  · intro u du _ _ hprem
    have := hprem s (List.mem_singleton.2 rfl) 0 (isDist_self s)
    omega
  · intro v hv
    simp at hv

theorem gridOpenB_iff {grid : List (List Int)} {p : Int × Int} :
    gridOpenB grid p = true ↔ InB grid p ∧ gridAt grid p.1 p.2 = 0 := by
  unfold gridOpenB InB
  simp only [Bool.and_eq_true, decide_eq_true_eq]
  tauto

theorem mem_gridCells {grid : List (List Int)} {p : Int × Int}
    (h : gridOpenB grid p = true) : p ∈ gridCells grid := by
  unfold gridCells
  rw [List.mem_filter]
  refine ⟨?_, h⟩
  rw [gridOpenB_iff] at h
  obtain ⟨⟨h1, h2, h3, h4⟩, _⟩ := h
  unfold gridRows at h2
  unfold gridCols at h4
  rw [List.mem_flatMap]
  refine ⟨p.1.toNat, ?_, ?_⟩
  · rw [List.mem_range]
    omega
  · rw [List.mem_map]
    refine ⟨p.2.toNat, ?_, ?_⟩
    · rw [List.mem_range]
      omega
    · obtain ⟨a, b⟩ := p
      simp only [Prod.mk.injEq, Int.ofNat_eq_coe]
      simp only at h1 h3
      constructor <;> omega

theorem gridNbr_mem {grid : List (List Int)} {x n : Int × Int} (h : n ∈ gridNbr grid x) :
    gridOpenB grid n = true ∧ StepAdj x n := by
  unfold gridNbr at h
  rw [List.mem_filter] at h
  exact ⟨h.2, h.1⟩

theorem gridNbr_sub_uni (grid : List (List Int)) (s : Int × Int) :
    ∀ x n, n ∈ gridNbr grid x → n ∈ s :: gridCells grid := by
  intro x n h
  exact List.mem_cons_of_mem _ (mem_gridCells (gridNbr_mem h).1)

theorem grid_stop_not_uni {grid : List (List Int)} {s : Int × Int} (hs : 0 ≤ s.1) :
    ((-1 : Int), (-1 : Int)) ∉ s :: gridCells grid := by
  intro h
  rcases List.mem_cons.1 h with h | h
  · have h1 : s.1 = (-1 : Int) := by rw [← h]
    omega
  · unfold gridCells at h
    have h2 := (List.mem_filter.1 h).2
    rw [gridOpenB_iff] at h2
    have hb : (0 : Int) ≤ -1 := h2.1.1
    omega

theorem pinv_init_grid (grid : List (List Int)) (st tg : Int × Int) :
    PInv (gridNbr grid) st tg (-1, -1) (-1, -1) (st :: gridCells grid) [] [st] [st] [] := by
  refine ⟨tinv_init_gen st _ (List.mem_cons_self _ _), by simp, by simp, ?_, rfl, ?_, by simp⟩
  · intro v hv
    exact Or.inl (List.mem_singleton.1 hv)
  · intro v hv hvs
    exact absurd (List.mem_singleton.1 hv) hvs

theorem gridCells_len (grid : List (List Int)) :
    (gridCells grid).length ≤ grid.length * (grid.headD []).length := by
  unfold gridCells
  refine le_trans (List.length_filter_le _ _) (le_of_eq ?_)
  rw [List.length_flatMap]
  have h1 : ∀ (l : List Nat) (m : Nat),
      (l.map fun r => ((List.range m).map fun c => (Int.ofNat r, Int.ofNat c)).length).sum =
        l.length * m := by
    intro l m
    induction l with
    | nil => simp
    | cons a t ih => simp [ih, Nat.succ_mul, Nat.add_comm]
  simpa [Function.comp_def] using h1 (List.range grid.length) (grid.headD []).length

theorem gridAt_of_mem01 {grid : List (List Int)} (hrect : RectGrid grid)
    (hbin : BinGrid grid) {p : Int × Int} (hin : InB grid p) :
    gridAt grid p.1 p.2 = 0 ∨ gridAt grid p.1 p.2 = 1 := by
  obtain ⟨h1, h2, h3, h4⟩ := hin
  unfold gridRows at h2
  unfold gridCols at h4
  unfold gridAt
  have hr : p.1.toNat < grid.length := by omega
  have hrmem : grid.getD p.1.toNat [] ∈ grid := by
    rw [List.getD_eq_getElem _ _ hr]
    exact List.getElem_mem _
  have hrlen : (grid.getD p.1.toNat []).length = (grid.headD []).length := hrect _ hrmem
  have hc : p.2.toNat < (grid.getD p.1.toNat []).length := by omega
  have hcm : (grid.getD p.1.toNat []).getD p.2.toNat 1 ∈ grid.getD p.1.toNat [] := by
    rw [List.getD_eq_getElem _ _ hc]
    exact List.getElem_mem _
  exact hbin _ hrmem _ hcm

/-- C9 (amended): on a rectangular grid whose cells are all 0 or 1 (as the
documentation specifies), every non-empty `gridBFS` result is a valid grid
walk: it starts at the start cell, ends at the target cell, every cell on it is
in bounds with value 0, and consecutive cells differ by one 4-connected step. -/
theorem c9_gridBFS_path_valid (grid : List (List Int)) (sr sc tr tc : Int)
    (hrect : RectGrid grid) (hbin : BinGrid grid)
    (hne : gridBFS grid sr sc tr tc ≠ []) :
    (gridBFS grid sr sc tr tc).head? = some (sr, sc) ∧
      (gridBFS grid sr sc tr tc).getLast? = some (tr, tc) ∧
      (∀ p ∈ gridBFS grid sr sc tr tc, InB grid p ∧ gridAt grid p.1 p.2 = 0) ∧
      List.Chain' StepAdj (gridBFS grid sr sc tr tc) := by
  by_cases h1 : grid = [] ∨ grid.headD [] = []
  · refine absurd ?_ hne
    unfold gridBFS
    rw [if_pos h1]
  by_cases h2 : sr < 0 ∨ gridRows grid ≤ sr ∨ sc < 0 ∨ gridCols grid ≤ sc ∨ tr < 0 ∨
      gridRows grid ≤ tr ∨ tc < 0 ∨ gridCols grid ≤ tc ∨ gridAt grid sr sc = 1 ∨
      gridAt grid tr tc = 1
  · refine absurd ?_ hne
    unfold gridBFS
    rw [if_neg h1, if_pos h2]
  have h2c := h2
  push_neg at h2c
  obtain ⟨hsr0, hsrR, hsc0, hscC, htr0, htrR, htc0, htcC, hsb, htb⟩ := h2c
  have hsin : InB grid (sr, sc) := ⟨hsr0, hsrR, hsc0, hscC⟩
  have htin : InB grid (tr, tc) := ⟨htr0, htrR, htc0, htcC⟩
  have hstart0 : gridAt grid sr sc = 0 := by
    rcases gridAt_of_mem01 hrect hbin hsin with h | h
    · exact h
    · exact absurd h hsb
  have htgt0 : gridAt grid tr tc = 0 := by
    rcases gridAt_of_mem01 hrect hbin htin with h | h
    · exact h
    · exact absurd h htb
  by_cases h3 : sr = tr ∧ sc = tc
  · have hres : gridBFS grid sr sc tr tc = [(sr, sc)] := by
      unfold gridBFS
      rw [if_neg h1, if_neg h2, if_pos h3]
    rw [hres]
    obtain ⟨he1, he2⟩ := h3
    refine ⟨rfl, by simp [he1, he2], ?_, by simp⟩
    intro p hp
    rw [List.mem_singleton.1 hp]
    exact ⟨hsin, hstart0⟩
  · have hrun : gridBFS grid sr sc tr tc =
        pbfsAux (gridNbr grid) (tr, tc) (-1, -1) (-1, -1)
          ((gridRows grid).toNat * (gridCols grid).toNat + 1)
          [(sr, sc)] [(sr, sc)] [] := by
      unfold gridBFS
      rw [if_neg h1, if_neg h2, if_neg h3]
    have hfuel : ([(sr, sc)] : List (Int × Int)).length +
        (((sr, sc) :: gridCells grid).length - ([(sr, sc)] : List (Int × Int)).length) ≤
        (gridRows grid).toNat * (gridCols grid).toNat + 1 := by
      have hlen := gridCells_len grid
      have hrows : (gridRows grid).toNat = grid.length := by
        simp [gridRows]
      have hcols : (gridCols grid).toNat = (grid.headD []).length := by
        simp [gridCols]
      rw [hrows, hcols]
      simp only [List.length_cons, List.length_singleton, List.length_nil]
      omega
    obtain ⟨hmain, hnone⟩ := pbfsAux_master (gridNbr_sub_uni grid (sr, sc))
      (grid_stop_not_uni hsr0) ((gridRows grid).toNat * (gridCols grid).toNat + 1)
      [(sr, sc)] [] [(sr, sc)] [] (pinv_init_grid grid (sr, sc) (tr, tc)) hfuel
    by_cases hr : Reach (gridNbr grid) (sr, sc) (tr, tc)
    · obtain ⟨l, hl, _, hhead, hlast, hchain, hmem, _⟩ := hmain hr
      rw [hrun, hl]
      refine ⟨hhead, hlast, ?_, ?_⟩
      · intro p hp
        rcases List.mem_cons.1 (hmem p hp) with hpc | hpc
        · rw [hpc]
          exact ⟨hsin, hstart0⟩
        · unfold gridCells at hpc
          have := (List.mem_filter.1 hpc).2
          rw [gridOpenB_iff] at this
          exact this
      · exact List.Chain'.imp (fun a b hb => (gridNbr_mem hb).2) hchain
    · exact absurd (hrun.trans (hnone hr)) hne

/-- C9 counterexample: on the grid `[[2, 0]]` the cell (0,0) holds the value 2,
which passes the obstacle check (`== 1`) as a start cell, so `gridBFS`
returns the path [(0,0), (0,1)] whose first cell is not passable (value 0). -/
theorem c9_counterexample :
    gridBFS cGrid2 0 0 0 1 ≠ [] ∧
      ¬ ∀ p ∈ gridBFS cGrid2 0 0 0 1, gridAt cGrid2 p.1 p.2 = 0 := by
  decide

/-- C9 witness: the amended statement instantiated on scenario B's grid. -/
theorem c9_witness :
    RectGrid cGrid ∧ BinGrid cGrid ∧ gridBFS cGrid 0 0 2 0 ≠ [] ∧
      ((gridBFS cGrid 0 0 2 0).head? = some (0, 0) ∧
        (gridBFS cGrid 0 0 2 0).getLast? = some (2, 0) ∧
        (∀ p ∈ gridBFS cGrid 0 0 2 0, InB cGrid p ∧ gridAt cGrid p.1 p.2 = 0) ∧
        List.Chain' StepAdj (gridBFS cGrid 0 0 2 0)) := by
  have hrect : RectGrid cGrid := by
    unfold RectGrid
    decide
  have hbin : BinGrid cGrid := by
    unfold BinGrid
    decide
  exact ⟨hrect, hbin, by decide, c9_gridBFS_path_valid cGrid 0 0 2 0 hrect hbin (by decide)⟩

/-- C1 (amended): on the grid `[[0,0,0],[1,1,0],[0,0,0]]` with start (0,0) and
target (2,0), `gridBFS` routes around the blocked middle row via column 2 and
returns the 7-cell path (0,0),(0,1),(0,2),(1,2),(2,2),(2,1),(2,0); the minimum
possible length is 7 cells, not 5. -/
theorem c1_gridBFS_scenarioB :
    gridBFS cGrid 0 0 2 0 = [(0, 0), (0, 1), (0, 2), (1, 2), (2, 2), (2, 1), (2, 0)] ∧
      (gridBFS cGrid 0 0 2 0).length = 7 := by
  exact ⟨by decide, by decide⟩

/-- C1 counterexample: the path returned for scenario B does not have 5 cells. -/
theorem c1_counterexample : (gridBFS cGrid 0 0 2 0).length ≠ 5 := by
  decide

end GridLemmas

section ClaimTotality

/-- C7: every query is total and returns its sentinel on "impossible" inputs:
an absent start vertex gives an empty traversal and distance -1, a negative
distance argument gives an empty level set, an unreachable target gives an
empty path and distance -1, and out-of-bounds or blocked grid endpoints give an
empty grid path. -/
theorem c7_total_sentinels (g : Graph) (s t dd : Int) (grid : List (List Int))
    (sr sc tr tc : Int) :
    (g.hasVertex s = false → traverse g s = [] ∧ ∀ t2, shortestDistance g s t2 = -1) ∧
      (dd < 0 → verticesAtDistance g s dd = []) ∧
      (¬ Reach g.getNeighbors s t → shortestPath g s t = [] ∧ shortestDistance g s t = -1) ∧
      ((sr < 0 ∨ gridRows grid ≤ sr ∨ sc < 0 ∨ gridCols grid ≤ sc ∨ tr < 0 ∨
          gridRows grid ≤ tr ∨ tc < 0 ∨ gridCols grid ≤ tc ∨ gridAt grid sr sc = 1 ∨
          gridAt grid tr tc = 1) →
        gridBFS grid sr sc tr tc = []) := by
  refine ⟨?_, ?_, ?_, ?_⟩
  · intro h
    exact ⟨traverse_nil h, fun t2 => shortestDistance_absent (Or.inl h)⟩
  · intro h
    simp only [verticesAtDistance, if_pos (Or.inr h)]
  · intro h
    exact ⟨shortestPath_of_unreach h, shortestDistance_of_unreach h⟩
  · intro h
    by_cases h1 : grid = [] ∨ grid.headD [] = []
    · unfold gridBFS
      rw [if_pos h1]
    · unfold gridBFS
      rw [if_neg h1, if_pos h]

/-- C7 witness: the sentinel instances on concrete inputs: vertex 99 is absent
from the two-vertex path graph, 42 is unreachable from 0, the distance
argument -1 is negative, and row 5 is out of bounds on the 3-by-3 grid. -/
theorem c7_witness :
    traverse gPath 99 = [] ∧ shortestDistance gPath 99 0 = -1 ∧
      verticesAtDistance gPath 99 (-1) = [] ∧ shortestPath gPath 0 42 = [] ∧
      shortestDistance gPath 0 42 = -1 ∧ gridBFS cGrid 5 0 0 0 = [] := by
  obtain ⟨h1, h2, _, _⟩ := c7_total_sentinels gPath 99 0 (-1) cGrid 5 0 0 0
  obtain ⟨_, _, h3, h4⟩ := c7_total_sentinels gPath 0 42 (-1) cGrid 5 0 0 0
  have hnr : ¬ Reach gPath.getNeighbors 0 42 := fun hr =>
    absurd ((mem_comp 42).2 hr) (by decide)
  refine ⟨(h1 (by decide)).1, (h1 (by decide)).2 0, h2 (by decide), (h3 hnr).1, (h3 hnr).2,
    h4 ?_⟩
  right
  left
  decide

end ClaimTotality

end BFS
